import Mathlib

/-!
Verification of the lithium testcase representation and splitting subsystem
(`src/lithium/testcases.py`).

Embedding conventions:
* bytes are modelled as `Nat` values (every real input byte is < 256 and no
  arithmetic is performed on byte values, so no overflow modelling is needed);
* a Python `bytes` object is a `List Nat`; a Python list of byte-strings is a
  `List (List Nat)`;
* Python list indexing `l[i]` is modelled with `List.getD`; every theorem that
  relies on such an access carries (or proves) the bound that makes the access
  in-range, matching the states reachable in the source;
* the `while True` scanning loops of the JS-string splitter are modelled with
  an explicit fuel parameter; the fuel supplied at every call site is proved
  sufficient (the out-of-fuel result is never produced), so the definitions
  stay executable by kernel reduction;
* file I/O is reduced to the byte content of the file: `load(path)` becomes a
  function of the file's bytes, `dump` becomes the byte string it writes.
-/

namespace Lithium

/-- Byte strings: a Python `bytes` value. -/
abbrev Bytes := List Nat

/-- Needle `n` is a prefix of the second argument (used to model Python
`bytes.find(...) != -1` substring tests). -/
def headMatch [DecidableEq α] : List α → List α → Bool
  | [], _ => true
  | _ :: _, [] => false
  | a :: as, b :: bs => if a = b then headMatch as bs else false

/-- Substring containment, modelling Python `haystack.find(needle) != -1`. -/
def containsSub [DecidableEq α] (needle : List α) : List α → Bool
  | [] => needle.isEmpty
  | c :: rest => headMatch needle (c :: rest) || containsSub needle rest

/-- Accumulator form of `splitLinesLF`. -/
def splitLinesLFAux : Bytes → Bytes → List Bytes
  | [], acc => if acc.isEmpty then [] else [acc.reverse]
  | c :: rest, acc =>
    if c = 10 then (acc.reverse ++ [c]) :: splitLinesLFAux rest []
    else splitLinesLFAux rest (c :: acc)

/-- Iterating a binary file object line by line: chunks end with a newline
byte; the final chunk may lack one.  Models `for line in fileobj` on a file
opened in `"rb"` mode. -/
def splitLinesLF (data : Bytes) : List Bytes :=
  splitLinesLFAux data []

/-- Accumulator form of `splitlinesKE`. -/
def splitlinesKEAux : Bytes → Bytes → List Bytes
  | [], acc => if acc.isEmpty then [] else [acc.reverse]
  | 13 :: 10 :: rest, acc => (acc.reverse ++ [13, 10]) :: splitlinesKEAux rest []
  | 13 :: rest, acc => (acc.reverse ++ [13]) :: splitlinesKEAux rest []
  | 10 :: rest, acc => (acc.reverse ++ [10]) :: splitlinesKEAux rest []
  | c :: rest, acc => splitlinesKEAux rest (c :: acc)

/-- Python `bytes.splitlines(keepends=True)`: split after `\n`, `\r` or
`\r\n`, keeping the terminator attached to the preceding content. -/
def splitlinesKE (data : Bytes) : List Bytes :=
  splitlinesKEAux data []

/-- The `Testcase` data model: `before`/`after` byte regions, the `parts`
sequence and the parallel `reducible` mask.  (The `filename`/`extension`
identity fields of the source are path bookkeeping with no behavioural
content and are not modelled.) -/
structure Testcase where
  before : Bytes
  after : Bytes
  parts : List Bytes
  reducible : List Bool
deriving DecidableEq

/-- The empty testcase produced by `Testcase.__init__`. -/
def emptyTc : Testcase := ⟨[], [], [], []⟩

/-- `Testcase.__len__`: `len(self.parts) - self.reducible.count(False)`. -/
def tcLen (t : Testcase) : Nat :=
  t.parts.length - t.reducible.count false

/-- The `_clamp` helper inside `Testcase._slice_xlat`. -/
def clampBound (bound : Option Int) (dflt lenSelf : Nat) : Nat :=
  match bound with
  | none => dflt
  | some b =>
    if b < 0 then ((lenSelf : Int) + b).toNat
    else if (lenSelf : Int) < b then lenSelf
    else b.toNat

/-- The boundary list `opts = [0] + opts[1:] + [len(self.parts)]` built by
`Testcase._slice_xlat` from the list of reducible physical indices. -/
def optsList (t : Testcase) : List Nat :=
  let os := (List.range t.parts.length).filter (fun i => t.reducible.getD i false)
  0 :: (os.drop 1 ++ [t.parts.length])

/-- `Testcase._slice_xlat`: translate logical (reducible-only) slice bounds to
physical bounds into `parts`.  The Python list accesses `opts[start]` and
`opts[stop]` are modelled with `Option`: an out-of-range access (which would
raise `IndexError`) yields `none`. -/
def sliceXlat (t : Testcase) (start stop : Option Int) : Option (Nat × Nat) :=
  let lenSelf := tcLen t
  let s := clampBound start 0 lenSelf
  let e := clampBound stop lenSelf lenSelf
  match (optsList t)[s]?, (optsList t)[e]? with
  | some a, some b => some (a, b)
  | _, _ => none

/-- `Testcase.rmslice`: remove the translated slice, keeping non-reducible
parts of the removed window in place.  The Python comprehension
`[x for i, x in enumerate(self.parts[start:stop]) if not self.reducible[start + i]]`
is modelled with `enumerate = zip (range ...)`. -/
def rmslice (t : Testcase) (start stop : Int) : Option Testcase :=
  match sliceXlat t (some start) (some stop) with
  | none => none
  | some (a, b) =>
    let window := (t.parts.drop a).take (b - a)
    let keep := (((List.range window.length).zip window).filter
      (fun p => !(t.reducible.getD (a + p.1) false))).map Prod.snd
    some { t with
      parts := t.parts.take a ++ keep ++ t.parts.drop b,
      reducible := t.reducible.take a ++ List.replicate keep.length false
        ++ t.reducible.drop b }

/-- Error outcomes of this subsystem: the two `LithiumError` sentinel
mismatches of `Testcase.load`, the `RuntimeError` of the JS-string scanner's
backtracking search, and the fuel-exhaustion artefact of the embedding (proved
unreachable). -/
inductive LErr where
  | ddendNoBegin
  | ddbeginNoEnd
  | jsBacktrack
  | fuelOut
deriving DecidableEq

/-- The error message texts of `Testcase.load` (with the `%s` file name
interpolated) and of the scanner's `RuntimeError`. -/
def errMessage (fname : String) : LErr → String
  | .ddendNoBegin =>
    "The testcase (" ++ fname ++ ") has a line containing \x27DDEND\x27 without a line containing \x27DDBEGIN\x27 before it."
  | .ddbeginNoEnd =>
    "The testcase (" ++ fname ++ ") has a line containing \x27DDBEGIN\x27 but no line containing \x27DDEND\x27."
  | .jsBacktrack => "error while backtracking from unmatched "
  | .fuelOut => ""

/-- Decidable equality for load results, so that concrete loads can be
checked by evaluation. -/
instance instDecEqExceptLErr {α : Type} [DecidableEq α] :
    DecidableEq (Except LErr α) := fun a b =>
  match a, b with
  | .ok x, .ok y =>
    if h : x = y then isTrue (by rw [h])
    else isFalse (fun hc => h (Except.ok.inj hc))
  | .error x, .error y =>
    if h : x = y then isTrue (by rw [h])
    else isFalse (fun hc => h (Except.error.inj hc))
  | .ok x, .error y => isFalse (fun hc => Except.noConfusion hc)
  | .error x, .ok y => isFalse (fun hc => Except.noConfusion hc)

/-- The bytes of `b"DDBEGIN"`. -/
def ddBEGIN : Bytes := [68, 68, 66, 69, 71, 73, 78]

/-- The bytes of `b"DDEND"`. -/
def ddEND : Bytes := [68, 68, 69, 78, 68]

/-- First loop of `Testcase.load`: accumulate lines into `before` until a
line containing `DDBEGIN` is found (returning `.inr (before, remaining
lines)`), fail if a line containing `DDEND` comes first, and return
`.inl (whole file)` if the file ends without either sentinel. -/
def phase1 : List Bytes → Bytes → Except LErr (Bytes ⊕ (Bytes × List Bytes))
  | [], acc => .ok (.inl acc)
  | line :: rest, acc =>
    let acc2 := acc ++ line
    if containsSub ddBEGIN line then .ok (.inr (acc2, rest))
    else if containsSub ddEND line then .error .ddendNoBegin
    else phase1 rest acc2

/-- Second loop of `Testcase.load`: accumulate lines into `between` until a
line containing `DDEND` is found; `after` is that line plus the remaining
file bytes (`line + fileobj.read()`); fail if the file ends first. -/
def phase2 : List Bytes → Bytes → Except LErr (Bytes × Bytes)
  | [], _ => .error .ddbeginNoEnd
  | line :: rest, acc =>
    if containsSub ddEND line then .ok (acc, line ++ rest.flatten)
    else phase2 rest (acc ++ line)

/-- `Testcase.load` over the file's byte content, parameterised by the
variant's `split_parts` (which for the JS-string variant may itself fail). -/
def genericLoad (split : Testcase → Bytes → Except LErr Testcase) (data : Bytes) :
    Except LErr Testcase :=
  match phase1 (splitLinesLF data) [] with
  | .error e => .error e
  | .ok (.inl whole) => split emptyTc whole
  | .ok (.inr (bf, rest)) =>
    match phase2 rest [] with
    | .error e => .error e
    | .ok (btw, af) => split { emptyTc with before := bf, after := af } btw

/-- `TestcaseLine.split_parts`: extend `parts` with
`data.splitlines(keepends=True)`, all new entries reducible. -/
def splitPartsLine (t : Testcase) (data : Bytes) : Testcase :=
  let new := splitlinesKE data
  { t with parts := t.parts ++ new,
           reducible := t.reducible ++ List.replicate new.length true }

/-- `TestcaseChar.split_parts`: every byte becomes its own reducible part. -/
def splitPartsChar (t : Testcase) (data : Bytes) : Testcase :=
  let new := data.map (fun c => [c])
  { t with parts := t.parts ++ new,
           reducible := t.reducible ++ List.replicate new.length true }

/-- `TestcaseChar.load`: generic load, then, when a sentinel region was
present and `parts` is non-empty, pop the trailing line-break part and
prepend `b"\n"` to `after`. -/
def loadChar (data : Bytes) : Except LErr Testcase :=
  match genericLoad (fun t d => .ok (splitPartsChar t d)) data with
  | .error e => .error e
  | .ok t =>
    if (!t.before.isEmpty || !t.after.isEmpty) && !t.parts.isEmpty then
      .ok { t with parts := t.parts.dropLast,
                   reducible := t.reducible.dropLast,
                   after := 10 :: t.after }
    else .ok t

/-- Default `DEFAULT_CUT_BEFORE = b"]}:"`. -/
def cutBeforeDefault : Bytes := [93, 125, 58]

/-- Default `DEFAULT_CUT_AFTER = b"?=;{[\n"`. -/
def cutAfterDefault : Bytes := [63, 61, 59, 123, 91, 10]

/-- A byte matching `[^BA]` for the symbol splitter's cutter regex. -/
def notBA (B A : Bytes) (c : Nat) : Bool :=
  !(B.contains c) && !(A.contains c)

/-- The tail `(?:[A]|$|(?=[B]))` of the cutter regex, applied after a maximal
`[^BA]*` run: consume one cut-after byte if present; otherwise (end of input,
or lookahead onto a cut-before byte) consume nothing. -/
def symTail (A : Bytes) : Bytes → Bytes × Bytes
  | [] => ([], [])
  | c :: rest => if A.contains c then ([c], rest) else ([], c :: rest)

/-- One match of the cutter regex `[B]?[^BA]*(?:[A]|$|(?=[B]))` at the start
of `data`, returning the matched run and the rest.  At a non-empty position
the match is always non-empty; the only empty match is at end of input (and
`TestcaseSymbol.split_parts` skips empty matches). -/
def symbolMatchOne (B A : Bytes) : Bytes → Bytes × Bytes
  | [] => ([], [])
  | c :: rest =>
    if B.contains c then
      let run := rest.takeWhile (notBA B A)
      let t := symTail A (rest.dropWhile (notBA B A))
      (c :: (run ++ t.1), t.2)
    else
      let run := (c :: rest).takeWhile (notBA B A)
      let t := symTail A ((c :: rest).dropWhile (notBA B A))
      (run ++ t.1, t.2)

/-- Fuelled iteration of `self._cutter.finditer(data)`; `data.length` fuel is
always sufficient since every match at a non-empty position is non-empty. -/
def splitSymAux (B A : Bytes) : Nat → Bytes → List Bytes
  | 0, _ => []
  | _, [] => []
  | f + 1, c :: rest =>
    let m := symbolMatchOne B A (c :: rest)
    m.1 :: splitSymAux B A f m.2

/-- `TestcaseSymbol.split_parts` with cut-character sets `B` (cut-before) and
`A` (cut-after): append each non-empty match, all reducible. -/
def splitPartsSymbol (B A : Bytes) (t : Testcase) (data : Bytes) : Testcase :=
  let new := splitSymAux B A data.length data
  { t with parts := t.parts ++ new,
           reducible := t.reducible ++ List.replicate new.length true }

/-- Hex digit test `[0-9A-Fa-f]` on a byte. -/
def isHexB (c : Nat) : Bool :=
  (48 ≤ c && c ≤ 57) || (65 ≤ c && c ≤ 70) || (97 ≤ c && c ≤ 102)

/-- Length matched by the alternative `\u\{[0-9A-Fa-f]+\}` when the bytes
after the leading backslash start with `u` followed by `r2`; falls back to
the `\\.` match (length 2) when the brace escape does not match. -/
def braceEscLen (r2 : Bytes) : Nat :=
  match r2 with
  | [] => 2
  | c :: r3 =>
    if c = 123 then
      if (r3.takeWhile isHexB).length = 0 then 2
      else if (r3.drop ((r3.takeWhile isHexB).length)).head? = some 125 then
        4 + (r3.takeWhile isHexB).length
      else 2
    else 2

/-- Length of the in-string token matched by
`re.match(br"(\\u[0-9A-Fa-f]{4}|\\x[0-9A-Fa-f]{2}|\\u\{[0-9A-Fa-f]+\}|\\.|.)", data, re.DOTALL)`
at the start of `data`; `0` exactly when `data` is empty (no match). -/
def jsTokenLen (data : Bytes) : Nat :=
  match data with
  | [] => 0
  | c :: rest =>
    if c = 92 then
      match rest with
      | [] => 1
      | u :: r2 =>
        if u = 117 then
          match r2 with
          | a :: b :: c2 :: d :: _ =>
            if isHexB a && isHexB b && isHexB c2 && isHexB d then 6 else braceEscLen r2
          | _ => braceEscLen r2
        else if u = 120 then
          match r2 with
          | a :: b :: _ => if isHexB a && isHexB b then 4 else 2
          | _ => 2
        else 2
    else 1

/-- Index of the first quote byte (`re.search(br"['\"]", data)`): position of
the first `0x27` or `0x22`. -/
def quoteIdx : Bytes → Option Nat
  | [] => none
  | c :: rest =>
    if c = 39 ∨ c = 34 then some 0 else (quoteIdx rest).map (· + 1)

/-- State of the JS-string scanner between steps: the accumulated `parts`,
the list `chars` of part indices that are in-string character tokens, the
open-quote byte `instr` (if inside a string) and the unconsumed input. -/
structure ScanSt where
  parts : List Bytes
  chars : List Nat
  instr : Option Nat
  rem : Bytes
deriving DecidableEq

/-- The inner `while True` loop of `TestcaseJsStr.split_parts` (fuelled).
Outside a string, `re.search(br"['\"]", ...)` finds the next quote and the
span up to and including it becomes one part; inside a string, one
escape-aware token is consumed per step, closing the string when the token
equals the open quote. -/
def jsInnerF : Nat → List Bytes → List Nat → Option Nat → Bytes → ScanSt
  | 0, parts, chars, instr, remaining => ⟨parts, chars, instr, remaining⟩
  | f + 1, parts, chars, instr, remaining =>
    match instr with
    | some q =>
      match remaining with
      | [] => ⟨parts, chars, some q, []⟩
      | _ :: _ =>
        let t := jsTokenLen remaining
        let chunk := remaining.take t
        if chunk = [q] then
          jsInnerF f (parts ++ [chunk]) chars none (remaining.drop t)
        else
          jsInnerF f (parts ++ [chunk]) (chars ++ [parts.length]) (some q)
            (remaining.drop t)
    | none =>
      match quoteIdx remaining with
      | none => ⟨parts, chars, none, remaining⟩
      | some i =>
        jsInnerF f (parts ++ [remaining.take (i + 1)]) chars
          (some (remaining.getD i 0)) (remaining.drop (i + 1))

/-- The backtracking search
`for idx in reversed(range(len(self.parts))): if self.parts[idx].endswith(instr) and idx not in chars`.
`endswith` on the one-byte quote is a last-byte test. -/
def backtrackIdx (parts : List Bytes) (chars : List Nat) (q : Nat) : Option Nat :=
  ((List.range parts.length).reverse).find?
    (fun idx => (parts.getD idx []).getLast? == some q && !(chars.contains idx))

/-- The outer `while True` loop of `TestcaseJsStr.split_parts` (fuelled): run
the inner scan, append any unconsumed tail as a part, and either finish (no
open string) or backtrack past the most recent eligible quote part, rejoining
everything after it into the input buffer. -/
def jsOuterLoopF : Nat → List Bytes → List Nat → Bytes →
    Except LErr (List Bytes × List Nat)
  | 0, _, _, _ => .error .fuelOut
  | f + 1, parts, chars, data =>
    let r := jsInnerF (data.length + 1) parts chars none data
    let parts2 := if r.rem.isEmpty then r.parts else r.parts ++ [r.rem]
    match r.instr with
    | none => .ok (parts2, r.chars)
    | some q =>
      match backtrackIdx parts2 r.chars q with
      | none => .error .jsBacktrack
      | some idx =>
        jsOuterLoopF f (parts2.take (idx + 1))
          (r.chars.filter (fun c => c < idx)) ((parts2.drop (idx + 1)).flatten)

/-- The `before`/`after` folding of `TestcaseJsStr.split_parts`: when `chars`
is non-empty, merge everything before the first character token into
`before` and everything after the last one into `after`.  Returns
`(before, after, parts, chars)`. -/
def jsFold (before after : Bytes) (parts0 : List Bytes) (chars0 : List Nat) :
    Bytes × Bytes × List Bytes × List Nat :=
  match chars0 with
  | [] => (before, after, parts0, chars0)
  | c0 :: _ =>
    let b1 := if c0 ≠ 0 then before ++ (parts0.take c0).flatten else before
    let p1 := if c0 ≠ 0 then parts0.drop c0 else parts0
    let ch1 := if c0 ≠ 0 then chars0.map (fun c => c - c0) else chars0
    let off := ch1.getLastD 0 + 1
    let a2 := if off < p1.length then ((p1.drop off).flatten) ++ after else after
    let p2 := if off < p1.length then p1.take off else p1
    (b1, a2, p2, ch1)

/-- One pass of the gap-merge loop of `TestcaseJsStr.split_parts`: for each
consecutive pair of character indices with a physical gap > 2, splice the
in-between parts into a single part and shift the later indices. -/
def gapMergeAux : Nat → List Bytes → List Nat → Nat → List Bytes × List Nat
  | 0, parts, chars, _ => (parts, chars)
  | s + 1, parts, chars, i =>
    let c1 := chars.getD i 0
    let c2 := chars.getD (i + 1) 0
    if c2 - c1 > 2 then
      let parts2 := parts.take (c1 + 1)
        ++ [((parts.drop (c1 + 1)).take (c2 - (c1 + 1))).flatten] ++ parts.drop c2
      let off := c2 - c1 - 2
      gapMergeAux s parts2
        (chars.take (i + 1) ++ (chars.drop (i + 1)).map (fun c => c - off)) (i + 1)
    else gapMergeAux s parts chars (i + 1)

/-- The gap-merge loop `for i in range(len(chars) - 1)` (the range bound is
fixed up front; the mutation never changes `len(chars)`). -/
def gapMerge (parts : List Bytes) (chars : List Nat) : List Bytes × List Nat :=
  gapMergeAux (chars.length - 1) parts chars 0

/-- The final reducibility assignment of `TestcaseJsStr.split_parts`:
`self.reducible = [False] * len(self.parts)`, then `True` at each character
index. -/
def setTrues (red : List Bool) (chars : List Nat) : List Bool :=
  chars.foldl (fun r c => r.set c true) red

/-- `TestcaseJsStr.split_parts`: scan (with backtracking), fold the spans
before the first and after the last character token into `before`/`after`,
merge wide gaps, and rebuild `reducible` from the character index list. -/
def splitPartsJsStr (t : Testcase) (data : Bytes) : Except LErr Testcase :=
  match jsOuterLoopF (data.length + 1) t.parts [] data with
  | .error e => .error e
  | .ok (parts0, chars0) =>
    let f := jsFold t.before t.after parts0 chars0
    let g := gapMerge f.2.2.1 f.2.2.2
    .ok ⟨f.1, f.2.1, g.1, setTrues (List.replicate g.1.length false) g.2⟩

/-- The four splitting-policy variants. -/
inductive Variant where
  | line
  | char
  | symbol
  | jsstr
deriving DecidableEq

/-- The `split_parts` implementation of each variant (pure ones wrapped in
`.ok`; the symbol variant with its default cut-character sets). -/
def splitOf : Variant → Testcase → Bytes → Except LErr Testcase
  | .line, t, d => .ok (splitPartsLine t d)
  | .char, t, d => .ok (splitPartsChar t d)
  | .symbol, t, d => .ok (splitPartsSymbol cutBeforeDefault cutAfterDefault t d)
  | .jsstr, t, d => splitPartsJsStr t d

/-- `load` for each variant (the char variant overrides `load` with its
trailing-byte hook). -/
def loadV : Variant → Bytes → Except LErr Testcase
  | .char, data => loadChar data
  | v, data => genericLoad (splitOf v) data

/-- The bytes written by `Testcase.dump`:
`before`, then every part, then `after`. -/
def dumpBytes (t : Testcase) : Bytes :=
  t.before ++ t.parts.flatten ++ t.after

/-- Reducible physical indices of a boolean mask, in order; a proof-side
companion of the list comprehension in `_slice_xlat`. -/
def trueIdxs : List Bool → List Nat
  | [] => []
  | b :: bs => (if b then [0] else []) ++ (trueIdxs bs).map (· + 1)

/-- Eligibility witness for the backtracking search: some part ends with the
open quote, is not a character token, and lies strictly beyond the first `L`
bytes of accumulated part content.  The `L` bound makes the rejoined input
buffer strictly shorter on every backtrack. -/
def Elig (parts : List Bytes) (chars : List Nat) (q : Nat) (L : Nat) : Prop :=
  ∃ j, j < parts.length ∧ (parts.getD j []).getLast? = some q ∧ j ∉ chars ∧
    L < ((parts.take (j + 1)).flatten).length

/-- Byte string of an ASCII string literal (test-fixture helper). -/
def strBytes (s : String) : Bytes := s.toList.map Char.toNat

/-- The alternating-mask fixture of the spec: ten single-digit parts with
`reducible = [False, True] * 5` (five logical parts). -/
def tcAlt : Testcase :=
  ⟨[], [],
    [[48], [49], [50], [51], [52], [53], [54], [55], [56], [57]],
    [false, true, false, true, false, true, false, true, false, true]⟩

/-- The file `b"DDEND DDBEGIN\n"`: one line containing both sentinels, with
`DDEND` first in the byte order. -/
def cexC6 : Bytes := strBytes "DDEND DDBEGIN\n"

/-- The sentinel test file `b"pre\nDDBEGIN\ndata\n2\nDDEND\npost\n"`. -/
def c8Data : Bytes := strBytes "pre\nDDBEGIN\ndata\n2\nDDEND\npost\n"

end Lithium

namespace Lithium

/-! Basic lemmas about the byte-level helpers. -/

theorem headMatch_refl [DecidableEq α] (l tail : List α) :
    headMatch l (l ++ tail) = true := by
  induction l with
  | nil => rfl
  | cons a as ih => simp [headMatch, ih]

theorem containsSub_append_right [DecidableEq α] (n l1 l2 : List α)
    (h : containsSub n l2 = true) : containsSub n (l1 ++ l2) = true := by
  induction l1 with
  | nil => simpa using h
  | cons c rest ih => simp [containsSub, ih]

theorem containsSub_of_head [DecidableEq α] (n tail : List α) :
    containsSub n (n ++ tail) = true := by
  cases n with
  | nil => cases tail <;> simp [containsSub, headMatch]
  | cons a as =>
    have h := headMatch_refl (a :: as) tail
    simp only [List.cons_append] at h
    simp [containsSub, h]

theorem splitLinesLFAux_flatten (data acc : Bytes) :
    (splitLinesLFAux data acc).flatten = acc.reverse ++ data := by
  induction data generalizing acc with
  | nil =>
    simp only [splitLinesLFAux]
    split
    · next h => simp_all [List.isEmpty_iff]
    · simp
  | cons c rest ih =>
    simp only [splitLinesLFAux]
    split
    · next h => subst h; simp [List.flatten_cons, ih]
    · rw [ih]; simp

theorem splitLinesLF_flatten (data : Bytes) :
    (splitLinesLF data).flatten = data := by
  simpa using splitLinesLFAux_flatten data []

theorem splitlinesKEAux_flatten (data acc : Bytes) :
    (splitlinesKEAux data acc).flatten = acc.reverse ++ data := by
  induction data, acc using splitlinesKEAux.induct with
  | case1 acc h =>
    simp only [splitlinesKEAux, h, if_true]
    simp_all [List.isEmpty_iff]
  | case2 acc h =>
    simp only [splitlinesKEAux, h, if_false]
    simp
  | case3 rest acc ih =>
    rw [splitlinesKEAux, List.flatten_cons, ih]
    simp
  | case4 rest acc h ih =>
    rw [splitlinesKEAux.eq_3 acc rest h, List.flatten_cons, ih]
    simp
  | case5 rest acc ih =>
    rw [splitlinesKEAux, List.flatten_cons, ih]
    simp
  | case6 c rest acc h1 h2 h3 ih =>
    rw [splitlinesKEAux.eq_5 acc c rest h1 h2 h3, ih]
    simp

theorem splitlinesKE_flatten (data : Bytes) :
    (splitlinesKE data).flatten = data := by
  simpa using splitlinesKEAux_flatten data []

/-! Lemmas about the symbol splitter. -/

theorem symTail_spec (A : Bytes) (l : Bytes) :
    (symTail A l).1 ++ (symTail A l).2 = l := by
  cases l with
  | nil => rfl
  | cons c rest =>
    simp only [symTail]
    split <;> simp

theorem symbolMatchOne_spec (B A : Bytes) (data : Bytes) :
    (symbolMatchOne B A data).1 ++ (symbolMatchOne B A data).2 = data := by
  cases data with
  | nil => rfl
  | cons c rest =>
    simp only [symbolMatchOne]
    split
    · simp only [List.cons_append, List.append_assoc, symTail_spec,
        List.takeWhile_append_dropWhile]
    · simp only [List.append_assoc, symTail_spec, List.takeWhile_append_dropWhile]

theorem symbolMatchOne_ne (B A : Bytes) (c : Nat) (rest : Bytes) :
    (symbolMatchOne B A (c :: rest)).1 ≠ [] := by
  simp only [symbolMatchOne]
  split
  · simp
  · next hB =>
    by_cases hA : A.contains c
    · have hmem : c ∈ A := by simpa using hA
      have hnot : notBA B A c = false := by simp [notBA, hmem]
      simp [List.takeWhile_cons, List.dropWhile_cons, hnot, symTail, hmem]
    · have hnot : notBA B A c = true := by
        have h1 : c ∉ B := by simpa using hB
        have h2 : c ∉ A := by simpa using hA
        simp [notBA, h1, h2]
      simp [List.takeWhile_cons, hnot]

theorem splitSymAux_flatten (B A : Bytes) (f : Nat) (data : Bytes)
    (h : data.length ≤ f) : (splitSymAux B A f data).flatten = data := by
  induction f generalizing data with
  | zero =>
    have : data = [] := List.length_eq_zero.mp (Nat.le_zero.mp h)
    subst this; rfl
  | succ f ih =>
    cases data with
    | nil => rfl
    | cons c rest =>
      simp only [splitSymAux, List.flatten_cons]
      have hsp := symbolMatchOne_spec B A (c :: rest)
      have hne := symbolMatchOne_ne B A c rest
      have hlen : (symbolMatchOne B A (c :: rest)).2.length ≤ f := by
        have h1 : (symbolMatchOne B A (c :: rest)).1.length
            + (symbolMatchOne B A (c :: rest)).2.length = rest.length + 1 := by
          have := congrArg List.length hsp
          simpa [List.length_append] using this
        have h2 : 1 ≤ (symbolMatchOne B A (c :: rest)).1.length := by
          cases hm : (symbolMatchOne B A (c :: rest)).1 with
          | nil => exact absurd hm hne
          | cons x xs => simp
        simp only [List.length_cons] at h
        omega
      rw [ih _ hlen, hsp]

/-! Lemmas about the load phases. -/

theorem phase1_no_sentinel (lines : List Bytes) (acc : Bytes)
    (h : ∀ l ∈ lines, containsSub ddBEGIN l = false ∧ containsSub ddEND l = false) :
    phase1 lines acc = .ok (.inl (acc ++ lines.flatten)) := by
  induction lines generalizing acc with
  | nil => simp [phase1]
  | cons line rest ih =>
    have hl := h line (by simp)
    simp only [phase1, hl.1, hl.2, Bool.false_eq_true, if_false]
    rw [ih _ (fun l hm => h l (by simp [hm]))]
    simp [List.flatten_cons, List.append_assoc]

end Lithium

namespace Lithium

/-! Lemmas about boolean masks and reducible indices. -/

theorem count_true_add_false (l : List Bool) :
    l.count true + l.count false = l.length := by
  induction l with
  | nil => rfl
  | cons b bs ih => cases b <;> simp [List.count_cons] <;> omega

theorem filter_range_eq_trueIdxs (red : List Bool) :
    (List.range red.length).filter (fun i => red.getD i false) = trueIdxs red := by
  induction red with
  | nil => rfl
  | cons b bs ih =>
    have h1 : ((fun i => (b :: bs).getD i false) ∘ Nat.succ) =
        fun i => bs.getD i false := by
      funext i
      simp [List.getD_cons_succ]
    rw [List.length_cons, List.range_succ_eq_map, List.filter_cons, List.filter_map,
      h1, ih]
    cases b <;> simp [List.getD_cons_zero, trueIdxs, Nat.succ_eq_add_one]

theorem trueIdxs_length (red : List Bool) :
    (trueIdxs red).length = red.count true := by
  induction red with
  | nil => rfl
  | cons b bs ih => cases b <;> simp [trueIdxs, ih, List.count_cons]

theorem trueIdxs_cons_true (bs : List Bool) :
    trueIdxs (true :: bs) = 0 :: (trueIdxs bs).map (· + 1) := by
  simp [trueIdxs]

theorem trueIdxs_cons_false (bs : List Bool) :
    trueIdxs (false :: bs) = (trueIdxs bs).map (· + 1) := by
  simp [trueIdxs]

theorem trueIdxs_true_zero (bs : List Bool) :
    (trueIdxs (true :: bs))[0]? = some 0 := by
  rw [trueIdxs_cons_true]
  simp

theorem trueIdxs_true_succ (bs : List Bool) (k : Nat) :
    (trueIdxs (true :: bs))[k + 1]? = ((trueIdxs bs)[k]?).map (· + 1) := by
  rw [trueIdxs_cons_true, List.getElem?_cons_succ, List.getElem?_map]

theorem trueIdxs_false_get (bs : List Bool) (k : Nat) :
    (trueIdxs (false :: bs))[k]? = ((trueIdxs bs)[k]?).map (· + 1) := by
  rw [trueIdxs_cons_false, List.getElem?_map]

theorem trueIdxs_lt (red : List Bool) (k x : Nat)
    (h : (trueIdxs red)[k]? = some x) : x < red.length := by
  induction red generalizing k x with
  | nil => simp [trueIdxs] at h
  | cons b bs ih =>
    cases b with
    | true =>
      cases k with
      | zero =>
        rw [trueIdxs_true_zero] at h
        simp at h
        simp [List.length_cons]
        omega
      | succ k =>
        rw [trueIdxs_true_succ] at h
        cases hx : (trueIdxs bs)[k]? with
        | none => rw [hx] at h; simp at h
        | some x2 =>
          rw [hx] at h
          simp at h
          have := ih k x2 hx
          simp only [List.length_cons]
          omega
    | false =>
      rw [trueIdxs_false_get] at h
      cases hx : (trueIdxs bs)[k]? with
      | none => rw [hx] at h; simp at h
      | some x2 =>
        rw [hx] at h
        simp at h
        have := ih k x2 hx
        simp only [List.length_cons]
        omega

theorem trueIdxs_count (red : List Bool) (k x : Nat)
    (h : (trueIdxs red)[k]? = some x) : (red.take x).count true = k := by
  induction red generalizing k x with
  | nil => simp [trueIdxs] at h
  | cons b bs ih =>
    cases b with
    | true =>
      cases k with
      | zero =>
        rw [trueIdxs_true_zero] at h
        simp at h
        subst h
        simp
      | succ k =>
        rw [trueIdxs_true_succ] at h
        cases hx : (trueIdxs bs)[k]? with
        | none => rw [hx] at h; simp at h
        | some x2 =>
          rw [hx] at h
          simp at h
          subst h
          rw [show x2 + 1 = 1 + x2 from Nat.add_comm x2 1, List.take_add]
          simp [List.count_append, List.count_cons, ih k x2 hx]
    | false =>
      rw [trueIdxs_false_get] at h
      cases hx : (trueIdxs bs)[k]? with
      | none => rw [hx] at h; simp at h
      | some x2 =>
        rw [hx] at h
        simp at h
        subst h
        rw [show x2 + 1 = 1 + x2 from Nat.add_comm x2 1, List.take_add]
        simp [List.count_append, List.count_cons, ih k x2 hx]

theorem trueIdxs_mono (red : List Bool) (s e x y : Nat) (hse : s ≤ e)
    (hx : (trueIdxs red)[s]? = some x) (hy : (trueIdxs red)[e]? = some y) :
    x ≤ y := by
  induction red generalizing s e x y with
  | nil => simp [trueIdxs] at hx
  | cons b bs ih =>
    cases b with
    | true =>
      cases s with
      | zero =>
        rw [trueIdxs_true_zero] at hx
        simp at hx
        omega
      | succ s =>
        cases e with
        | zero => omega
        | succ e =>
          rw [trueIdxs_true_succ] at hx hy
          cases hx2 : (trueIdxs bs)[s]? with
          | none => rw [hx2] at hx; simp at hx
          | some x2 =>
            cases hy2 : (trueIdxs bs)[e]? with
            | none => rw [hy2] at hy; simp at hy
            | some y2 =>
              rw [hx2] at hx
              rw [hy2] at hy
              simp at hx hy
              have := ih s e x2 y2 (by omega) hx2 hy2
              omega
    | false =>
      rw [trueIdxs_false_get] at hx hy
      cases hx2 : (trueIdxs bs)[s]? with
      | none => rw [hx2] at hx; simp at hx
      | some x2 =>
        cases hy2 : (trueIdxs bs)[e]? with
        | none => rw [hy2] at hy; simp at hy
        | some y2 =>
          rw [hx2] at hx
          rw [hy2] at hy
          simp at hx hy
          have := ih s e x2 y2 hse hx2 hy2
          omega

/-! Lemmas about the slice-index translator. -/

theorem tcLen_eq_count (t : Testcase) (hlen : t.reducible.length = t.parts.length) :
    tcLen t = t.reducible.count true := by
  have := count_true_add_false t.reducible
  simp only [tcLen]
  omega

theorem optsList_eq (t : Testcase) (hlen : t.reducible.length = t.parts.length) :
    optsList t = 0 :: ((trueIdxs t.reducible).drop 1 ++ [t.parts.length]) := by
  simp only [optsList]
  rw [← hlen, filter_range_eq_trueIdxs]

theorem clampBound_le (bound : Option Int) (d L : Nat) (hd : d ≤ L) :
    clampBound bound d L ≤ L := by
  cases bound with
  | none => simpa [clampBound] using hd
  | some b =>
    simp only [clampBound]
    split
    · omega
    · split
      · omega
      · omega

theorem optsSpec (t : Testcase) (hlen : t.reducible.length = t.parts.length)
    (k : Nat) (hk : k ≤ t.reducible.count true) :
    ∃ a, (optsList t)[k]? = some a ∧ a ≤ t.parts.length ∧
      (t.reducible.take a).count true = k := by
  rw [optsList_eq t hlen]
  cases k with
  | zero => exact ⟨0, by simp, by simp, by simp⟩
  | succ k =>
    have hr : (trueIdxs t.reducible).length = t.reducible.count true :=
      trueIdxs_length t.reducible
    rw [List.getElem?_cons_succ]
    by_cases hend : k + 1 = t.reducible.count true
    · refine ⟨t.parts.length, ?_, le_refl _, ?_⟩
      · rw [List.getElem?_append_right (by simp [List.length_drop]; omega)]
        simp only [List.length_drop, hr]
        rw [show k - (t.reducible.count true - 1) = 0 from by omega]
        rfl
      · rw [← hlen, List.take_length, hend]
    · have hlt : k + 1 < (trueIdxs t.reducible).length := by omega
      have hget : ∃ a, (trueIdxs t.reducible)[k + 1]? = some a := by
        rw [List.getElem?_eq_getElem hlt]
        exact ⟨_, rfl⟩
      obtain ⟨a, ha⟩ := hget
      refine ⟨a, ?_, ?_, trueIdxs_count _ _ _ ha⟩
      · rw [List.getElem?_append,
          if_pos (show k < (List.drop 1 (trueIdxs t.reducible)).length from by
            simp only [List.length_drop]; omega)]
        rw [List.getElem?_drop]
        rw [show 1 + k = k + 1 from Nat.add_comm 1 k]
        exact ha
      · have := trueIdxs_lt _ _ _ ha
        omega

theorem optsMono (t : Testcase) (hlen : t.reducible.length = t.parts.length)
    (s e a b : Nat) (hse : s ≤ e) (he : e ≤ t.reducible.count true)
    (ha : (optsList t)[s]? = some a) (hb : (optsList t)[e]? = some b) :
    a ≤ b := by
  obtain ⟨a2, ha2, _, hca⟩ := optsSpec t hlen s (by omega)
  obtain ⟨b2, hb2, _, hcb⟩ := optsSpec t hlen e he
  have hae : a2 = a := Option.some_inj.mp (ha2.symm.trans ha)
  have hbe : b2 = b := Option.some_inj.mp (hb2.symm.trans hb)
  rw [hae] at hca
  rw [hbe] at hcb
  rcases Nat.lt_or_ge s e with hlt | hge
  · by_contra hab
    push_neg at hab
    have hsub : (t.reducible.take b).Sublist (t.reducible.take a) := by
      rw [show t.reducible.take b = (t.reducible.take a).take b from by
        rw [List.take_take, Nat.min_eq_left (by omega)]]
      exact List.take_sublist b _
    have := hsub.count_le true
    omega
  · have hse2 : s = e := by omega
    rw [hse2] at ha
    have : a = b := Option.some_inj.mp (ha.symm.trans hb)
    omega

theorem count_true_window (red : List Bool) (a b : Nat) (hab : a ≤ b) :
    (red.take a).count true + ((red.drop a).take (b - a)).count true
      = (red.take b).count true := by
  have h2 : red.take b = red.take a ++ (red.drop a).take (b - a) := by
    rw [← List.take_add]
    congr 1
    omega
  rw [h2, List.count_append]

/-- The physical bounds returned by `_slice_xlat` in terms of clamped logical
bounds: always defined, in range, ordered, and cutting the mask at exactly
the clamped logical positions. -/
theorem sliceXlat_spec (t : Testcase) (hlen : t.reducible.length = t.parts.length)
    (start stop : Option Int) :
    ∃ a b, sliceXlat t start stop = some (a, b) ∧
      a ≤ t.parts.length ∧ b ≤ t.parts.length ∧
      (t.reducible.take a).count true = clampBound start 0 (tcLen t) ∧
      (t.reducible.take b).count true = clampBound stop (tcLen t) (tcLen t) ∧
      (clampBound start 0 (tcLen t) ≤ clampBound stop (tcLen t) (tcLen t) → a ≤ b) := by
  have hcnt := tcLen_eq_count t hlen
  have hs : clampBound start 0 (tcLen t) ≤ t.reducible.count true := by
    rw [← hcnt]
    exact clampBound_le _ _ _ (Nat.zero_le _)
  have he : clampBound stop (tcLen t) (tcLen t) ≤ t.reducible.count true := by
    rw [← hcnt]
    exact clampBound_le _ _ _ (le_refl _)
  obtain ⟨a, ha, haN, hca⟩ := optsSpec t hlen _ hs
  obtain ⟨b, hb, hbN, hcb⟩ := optsSpec t hlen _ he
  refine ⟨a, b, ?_, haN, hbN, hca, hcb, fun hord => optsMono t hlen _ _ a b hord he ha hb⟩
  simp only [sliceXlat]
  rw [ha, hb]

/-! Lemmas about `rmslice`. -/

theorem zipRangeFilter (w : List Bytes) (red : List Bool) (a : Nat)
    (hb : a + w.length ≤ red.length) :
    ((((List.range w.length).zip w).filter
        (fun p => !(red.getD (a + p.1) false))).map Prod.snd)
    = ((w.zip ((red.drop a).take w.length)).filter (fun p => !p.2)).map Prod.fst := by
  induction w generalizing a with
  | nil => rfl
  | cons x w ih =>
    have hlt : a < red.length := by
      simp only [List.length_cons] at hb
      omega
    have hdrop : red.drop a = red.getD a false :: red.drop (a + 1) := by
      rw [List.drop_eq_getElem_cons hlt]
      congr 1
      rw [List.getD_eq_getElem?_getD, List.getElem?_eq_getElem hlt]
      rfl
    have hfun : ((fun p => !(red.getD (a + p.1) false)) ∘ Prod.map Nat.succ id)
        = fun p : Nat × Bytes => !(red.getD ((a + 1) + p.1) false) := by
      funext p
      simp only [Function.comp_apply, Prod.map_fst]
      congr 2
      omega
    have hih := ih (a + 1) (by simp only [List.length_cons] at hb; omega)
    rw [List.length_cons, List.range_succ_eq_map, List.zip_cons_cons,
      List.zip_map_left, hdrop, List.take_succ_cons, List.zip_cons_cons]
    by_cases hr : red.getD a false
    · simp only [List.filter_cons, Nat.add_zero, hr, Bool.not_true,
        Bool.false_eq_true, if_false, List.filter_map, hfun, List.map_map]
      have hsnd : (Prod.snd ∘ Prod.map Nat.succ (id : Bytes → Bytes)) = Prod.snd := by
        funext p
        simp
      rw [hsnd, hih]
    · simp only [Bool.not_eq_true] at hr
      simp only [List.filter_cons, Nat.add_zero, hr, Bool.not_false, if_true,
        List.map_cons, List.filter_map, hfun, List.map_map]
      have hsnd : (Prod.snd ∘ Prod.map Nat.succ (id : Bytes → Bytes)) = Prod.snd := by
        funext p
        simp
      rw [hsnd, hih]

theorem rmslice_eval (t : Testcase) (start stop : Int) (a b : Nat)
    (h : sliceXlat t (some start) (some stop) = some (a, b)) :
    rmslice t start stop = some { t with
      parts := t.parts.take a
        ++ ((((List.range ((t.parts.drop a).take (b - a)).length).zip
              ((t.parts.drop a).take (b - a))).filter
            (fun p => !(t.reducible.getD (a + p.1) false))).map Prod.snd)
        ++ t.parts.drop b,
      reducible := t.reducible.take a
        ++ List.replicate ((((List.range ((t.parts.drop a).take (b - a)).length).zip
              ((t.parts.drop a).take (b - a))).filter
            (fun p => !(t.reducible.getD (a + p.1) false))).map Prod.snd).length false
        ++ t.reducible.drop b } := by
  simp only [rmslice, h]

theorem setTrues_length (chars : List Nat) (red : List Bool) :
    (setTrues red chars).length = red.length := by
  induction chars generalizing red with
  | nil => rfl
  | cons c cs ih =>
    simp only [setTrues, List.foldl_cons] at ih ⊢
    rw [ih, List.length_set]

theorem rmslice_pres_len (t t' : Testcase) (start stop : Int)
    (hlen : t.reducible.length = t.parts.length)
    (h : rmslice t start stop = some t') :
    t'.reducible.length = t'.parts.length := by
  obtain ⟨a, b, hx, haN, hbN, -, -, -⟩ := sliceXlat_spec t hlen (some start) (some stop)
  rw [rmslice_eval t start stop a b hx] at h
  have ht : t' = _ := (Option.some_inj.mp h).symm
  rw [ht]
  simp only [List.length_append, List.length_take, List.length_replicate,
    List.length_drop, List.length_map]
  omega

/-! Length preservation through `load` (claim C2, load part). -/

theorem splitPartsLine_len (t : Testcase) (d : Bytes)
    (hlen : t.reducible.length = t.parts.length) :
    (splitPartsLine t d).reducible.length = (splitPartsLine t d).parts.length := by
  simp [splitPartsLine, List.length_append, hlen]

theorem splitPartsChar_len (t : Testcase) (d : Bytes)
    (hlen : t.reducible.length = t.parts.length) :
    (splitPartsChar t d).reducible.length = (splitPartsChar t d).parts.length := by
  simp [splitPartsChar, List.length_append, hlen]

theorem splitPartsSymbol_len (B A : Bytes) (t : Testcase) (d : Bytes)
    (hlen : t.reducible.length = t.parts.length) :
    (splitPartsSymbol B A t d).reducible.length
      = (splitPartsSymbol B A t d).parts.length := by
  simp [splitPartsSymbol, List.length_append, hlen]

theorem splitPartsJsStr_len (t t' : Testcase) (d : Bytes)
    (h : splitPartsJsStr t d = .ok t') :
    t'.reducible.length = t'.parts.length := by
  unfold splitPartsJsStr at h
  split at h
  · simp at h
  · have ht := Except.ok.inj h
    rw [← ht]
    simp [setTrues_length]

theorem splitOf_pres_len (v : Variant) (t t' : Testcase) (d : Bytes)
    (hlen : t.reducible.length = t.parts.length)
    (h : splitOf v t d = .ok t') :
    t'.reducible.length = t'.parts.length := by
  cases v with
  | line =>
    have := Except.ok.inj h
    rw [← this]
    exact splitPartsLine_len t d hlen
  | char =>
    have := Except.ok.inj h
    rw [← this]
    exact splitPartsChar_len t d hlen
  | symbol =>
    have := Except.ok.inj h
    rw [← this]
    exact splitPartsSymbol_len _ _ t d hlen
  | jsstr => exact splitPartsJsStr_len t t' d h

theorem genericLoad_pres_len (split : Testcase → Bytes → Except LErr Testcase)
    (hsplit : ∀ t d t', t.reducible.length = t.parts.length → split t d = .ok t' →
      t'.reducible.length = t'.parts.length)
    (data : Bytes) (t : Testcase) (h : genericLoad split data = .ok t) :
    t.reducible.length = t.parts.length := by
  unfold genericLoad at h
  split at h
  · simp at h
  · next whole heq => exact hsplit emptyTc whole t rfl h
  · next bf rest heq =>
    split at h
    · simp at h
    · next btw af heq2 => exact hsplit _ btw t rfl h

theorem loadChar_pres_len (data : Bytes) (t : Testcase)
    (h : loadChar data = .ok t) :
    t.reducible.length = t.parts.length := by
  unfold loadChar at h
  split at h
  · simp at h
  · next t0 heq =>
    have h0 : t0.reducible.length = t0.parts.length := by
      refine genericLoad_pres_len _ ?_ data t0 heq
      intro t1 d1 t1' hl1 h1
      have := Except.ok.inj h1
      rw [← this]
      exact splitPartsChar_len t1 d1 hl1
    split at h
    · have := Except.ok.inj h
      rw [← this]
      simp [List.length_dropLast, h0]
    · have := Except.ok.inj h
      rw [← this]
      exact h0

theorem loadV_pres_len (v : Variant) (data : Bytes) (t : Testcase)
    (h : loadV v data = .ok t) :
    t.reducible.length = t.parts.length := by
  cases v with
  | char => exact loadChar_pres_len data t h
  | line =>
    exact genericLoad_pres_len _ (fun t1 d1 t2 => splitOf_pres_len .line t1 t2 d1) data t h
  | symbol =>
    exact genericLoad_pres_len _ (fun t1 d1 t2 => splitOf_pres_len .symbol t1 t2 d1) data t h
  | jsstr =>
    exact genericLoad_pres_len _ (fun t1 d1 t2 => splitOf_pres_len .jsstr t1 t2 d1) data t h

/-- When no line carries a sentinel, `load` hands the whole file to
`split_parts` on a fresh instance. -/
theorem genericLoad_no_sentinel (split : Testcase → Bytes → Except LErr Testcase)
    (data : Bytes)
    (hns : ∀ l ∈ splitLinesLF data,
      containsSub ddBEGIN l = false ∧ containsSub ddEND l = false) :
    genericLoad split data = split emptyTc data := by
  unfold genericLoad
  rw [phase1_no_sentinel _ _ hns]
  simp [splitLinesLF_flatten]

/-! Lemmas about the JS-string scanner. -/

theorem flatten_take_drop (l : List Bytes) (n : Nat) :
    (l.take n).flatten ++ (l.drop n).flatten = l.flatten := by
  rw [← List.flatten_append, List.take_append_drop]

theorem flatten_mid (l : List Bytes) (a k : Nat) :
    (l.take a).flatten ++ (((l.drop a).take k).flatten ++ (l.drop (a + k)).flatten)
      = l.flatten := by
  have h1 : l.drop (a + k) = (l.drop a).drop k := by
    rw [List.drop_drop]
  rw [h1, flatten_take_drop]
  exact flatten_take_drop l a

theorem getD_append_left {α : Type} (l₁ l₂ : List α) (n : Nat) (d : α)
    (h : n < l₁.length) : (l₁ ++ l₂).getD n d = l₁.getD n d := by
  rw [List.getD_eq_getElem?_getD, List.getD_eq_getElem?_getD, List.getElem?_append,
    if_pos h]

theorem getD_append_last {α : Type} (l : List α) (x : α) (d : α) :
    (l ++ [x]).getD l.length d = x := by
  rw [List.getD_eq_getElem?_getD, List.getElem?_append_right (le_refl _)]
  simp

theorem take_append_left {α : Type} (l₁ l₂ : List α) (n : Nat) (h : n ≤ l₁.length) :
    (l₁ ++ l₂).take n = l₁.take n := by
  rw [List.take_append_eq_append_take, show n - l₁.length = 0 from by omega]
  simp

theorem getLast?_take (l : Bytes) (i : Nat) (h : i < l.length) :
    (l.take (i + 1)).getLast? = some (l.getD i 0) := by
  rw [List.getLast?_eq_getElem?]
  have hlen : (l.take (i + 1)).length = i + 1 := by
    rw [List.length_take]
    omega
  rw [hlen]
  simp only [Nat.add_sub_cancel]
  rw [List.getElem?_take, if_pos (by omega)]
  simp [List.getD_eq_getElem?_getD, List.getElem?_eq_getElem h]

theorem quoteIdx_some (l : Bytes) (i : Nat) (h : quoteIdx l = some i) :
    i < l.length ∧ (l.getD i 0 = 39 ∨ l.getD i 0 = 34) := by
  induction l generalizing i with
  | nil => simp [quoteIdx] at h
  | cons c rest ih =>
    rw [quoteIdx] at h
    split at h
    · next hq =>
      have hi : i = 0 := by
        have := Option.some_inj.mp h
        omega
      subst hi
      exact ⟨by simp, by simpa [List.getD_cons_zero] using hq⟩
    · next hq =>
      cases hrec : quoteIdx rest with
      | none => rw [hrec] at h; simp at h
      | some j =>
        rw [hrec] at h
        simp at h
        have hij : j + 1 = i := by omega
        obtain ⟨hjl, hjq⟩ := ih j hrec
        subst hij
        refine ⟨by simp only [List.length_cons]; omega, ?_⟩
        simpa [List.getD_cons_succ] using hjq

theorem braceEscLen_pos (r2 : Bytes) : 1 ≤ braceEscLen r2 := by
  unfold braceEscLen
  split
  · omega
  · split
    · split
      · omega
      · split <;> omega
    · omega

theorem jsTokenLen_pos (data : Bytes) (h : data ≠ []) : 1 ≤ jsTokenLen data := by
  cases data with
  | nil => exact absurd rfl h
  | cons c rest =>
    simp only [jsTokenLen]
    split
    · split
      · omega
      · split
        · split
          · split
            · omega
            · exact braceEscLen_pos _
          · exact braceEscLen_pos _
        · split
          · split
            · split <;> omega
            · omega
          · omega
    · omega

theorem Elig_append (parts : List Bytes) (chars : List Nat) (q L : Nat)
    (chunk : Bytes) (h : Elig parts chars q L) :
    Elig (parts ++ [chunk]) chars q L := by
  obtain ⟨j, hj, hlast, hnot, hL⟩ := h
  refine ⟨j, by simp only [List.length_append, List.length_cons]; omega, ?_, hnot, ?_⟩
  · rw [getD_append_left _ _ _ _ hj]
    exact hlast
  · rw [take_append_left _ _ _ (by omega)]
    exact hL

theorem Elig_extend (parts : List Bytes) (chars : List Nat) (q L : Nat)
    (chunk : Bytes) (x : Nat) (h : Elig parts chars q L)
    (hx : parts.length ≤ x) : Elig (parts ++ [chunk]) (chars ++ [x]) q L := by
  obtain ⟨j, hj, hlast, hnot, hL⟩ := h
  refine ⟨j, by simp only [List.length_append, List.length_cons]; omega, ?_, ?_, ?_⟩
  · rw [getD_append_left _ _ _ _ hj]
    exact hlast
  · intro hmem
    rcases List.mem_append.mp hmem with hm | hm
    · exact hnot hm
    · simp at hm
      omega
  · rw [take_append_left _ _ _ (by omega)]
    exact hL

theorem jsInnerF_spec : ∀ (fuel : Nat) (parts : List Bytes) (chars : List Nat)
    (instr : Option Nat) (remaining : Bytes) (L : Nat),
    remaining.length < fuel →
    (∀ c ∈ chars, c < parts.length) →
    L ≤ parts.flatten.length →
    (∀ q, instr = some q → Elig parts chars q L) →
    (∃ D, (jsInnerF fuel parts chars instr remaining).parts = parts ++ D) ∧
    (jsInnerF fuel parts chars instr remaining).parts.flatten
        ++ (jsInnerF fuel parts chars instr remaining).rem
      = parts.flatten ++ remaining ∧
    (∀ c ∈ (jsInnerF fuel parts chars instr remaining).chars,
      c < (jsInnerF fuel parts chars instr remaining).parts.length) ∧
    (∀ q, (jsInnerF fuel parts chars instr remaining).instr = some q →
      (jsInnerF fuel parts chars instr remaining).rem = [] ∧
      Elig (jsInnerF fuel parts chars instr remaining).parts
        (jsInnerF fuel parts chars instr remaining).chars q L) := by
  intro fuel
  induction fuel with
  | zero =>
    intro parts chars instr remaining L hfuel hch hL hop
    omega
  | succ f ih =>
    intro parts chars instr remaining L hfuel hch hL hop
    cases instr with
    | some q =>
      cases remaining with
      | nil =>
        refine ⟨⟨[], by simp [jsInnerF]⟩, by simp [jsInnerF], ?_, ?_⟩
        · simpa [jsInnerF] using hch
        · intro q2 hq2
          simp only [jsInnerF] at hq2
          have hq2' : q = q2 := Option.some_inj.mp hq2
          rw [← hq2']
          exact ⟨by simp [jsInnerF], by simpa [jsInnerF] using hop q rfl⟩
      | cons r0 rr =>
        have hne : (r0 :: rr : Bytes) ≠ [] := by simp
        have htpos : 1 ≤ jsTokenLen (r0 :: rr) := jsTokenLen_pos _ hne
        by_cases hcq : (r0 :: rr).take (jsTokenLen (r0 :: rr)) = [q]
        · have hred : jsInnerF (f + 1) parts chars (some q) (r0 :: rr)
              = jsInnerF f (parts ++ [(r0 :: rr).take (jsTokenLen (r0 :: rr))]) chars
                  none ((r0 :: rr).drop (jsTokenLen (r0 :: rr))) := by
            simp only [jsInnerF]
            rw [if_pos hcq]
          have hih := ih (parts ++ [(r0 :: rr).take (jsTokenLen (r0 :: rr))]) chars none
            ((r0 :: rr).drop (jsTokenLen (r0 :: rr))) L
            (by simp only [List.length_drop, List.length_cons] at hfuel ⊢; omega)
            (by
              intro c hc
              have := hch c hc
              simp only [List.length_append, List.length_cons]
              omega)
            (by
              rw [List.flatten_append]
              simp only [List.length_append]
              omega)
            (by intro q2 hq2; cases hq2)
          obtain ⟨⟨D, hD⟩, hcont, hch2, hout⟩ := hih
          rw [hred]
          refine ⟨⟨(r0 :: rr).take (jsTokenLen (r0 :: rr)) :: D, by
            rw [hD]; simp [List.append_assoc]⟩, ?_, hch2, hout⟩
          rw [hcont, List.flatten_append]
          simp [List.append_assoc, List.take_append_drop]
        · have hred : jsInnerF (f + 1) parts chars (some q) (r0 :: rr)
              = jsInnerF f (parts ++ [(r0 :: rr).take (jsTokenLen (r0 :: rr))])
                  (chars ++ [parts.length]) (some q)
                  ((r0 :: rr).drop (jsTokenLen (r0 :: rr))) := by
            simp only [jsInnerF]
            rw [if_neg hcq]
          have hih := ih (parts ++ [(r0 :: rr).take (jsTokenLen (r0 :: rr))])
            (chars ++ [parts.length]) (some q)
            ((r0 :: rr).drop (jsTokenLen (r0 :: rr))) L
            (by simp only [List.length_drop, List.length_cons] at hfuel ⊢; omega)
            (by
              intro c hc
              simp only [List.length_append, List.length_cons]
              rcases List.mem_append.mp hc with hm | hm
              · have := hch c hm
                omega
              · simp at hm
                omega)
            (by
              rw [List.flatten_append]
              simp only [List.length_append]
              omega)
            (by
              intro q2 hq2
              have hq2' : q = q2 := Option.some_inj.mp hq2
              rw [← hq2']
              exact Elig_extend parts chars q L _ parts.length (hop q rfl) (le_refl _))
          obtain ⟨⟨D, hD⟩, hcont, hch2, hout⟩ := hih
          rw [hred]
          refine ⟨⟨(r0 :: rr).take (jsTokenLen (r0 :: rr)) :: D, by
            rw [hD]; simp [List.append_assoc]⟩, ?_, hch2, hout⟩
          rw [hcont, List.flatten_append]
          simp [List.append_assoc, List.take_append_drop]
    | none =>
      cases hqi : quoteIdx remaining with
      | none =>
        have hred : jsInnerF (f + 1) parts chars none remaining
            = ⟨parts, chars, none, remaining⟩ := by
          simp only [jsInnerF, hqi]
        rw [hred]
        exact ⟨⟨[], by simp⟩, rfl, hch, by intro q2 hq2; cases hq2⟩
      | some i =>
        obtain ⟨hilt, hiq⟩ := quoteIdx_some remaining i hqi
        have hne : remaining ≠ [] := by
          intro hemp
          rw [hemp] at hilt
          simp at hilt
        have hred : jsInnerF (f + 1) parts chars none remaining
            = jsInnerF f (parts ++ [remaining.take (i + 1)]) chars
                (some (remaining.getD i 0)) (remaining.drop (i + 1)) := by
          simp only [jsInnerF, hqi]
        have hih := ih (parts ++ [remaining.take (i + 1)]) chars
          (some (remaining.getD i 0)) (remaining.drop (i + 1)) L
          (by simp only [List.length_drop]; omega)
          (by
            intro c hc
            have := hch c hc
            simp only [List.length_append, List.length_cons]
            omega)
          (by
            rw [List.flatten_append]
            simp only [List.length_append]
            omega)
          (by
            intro q2 hq2
            have hq2' : remaining.getD i 0 = q2 := Option.some_inj.mp hq2
            rw [← hq2']
            refine ⟨parts.length, ?_, ?_, ?_, ?_⟩
            · simp only [List.length_append, List.length_cons]
              omega
            · rw [getD_append_last]
              exact getLast?_take remaining i hilt
            · intro hmem
              have := hch _ hmem
              omega
            · have htake : (parts ++ [remaining.take (i + 1)]).take (parts.length + 1)
                  = parts ++ [remaining.take (i + 1)] := by
                apply List.take_of_length_le
                simp
              rw [htake, List.flatten_append]
              simp only [List.length_append, List.flatten_cons, List.flatten_nil,
                List.append_nil, List.length_take]
              omega)
        obtain ⟨⟨D, hD⟩, hcont, hch2, hout⟩ := hih
        rw [hred]
        refine ⟨⟨remaining.take (i + 1) :: D, by
          rw [hD]; simp [List.append_assoc]⟩, ?_, hch2, hout⟩
        rw [hcont, List.flatten_append]
        simp [List.append_assoc, List.take_append_drop]

theorem flatten_take_len_mono (l : List Bytes) (a b : Nat) (hab : a ≤ b) :
    (l.take a).flatten.length ≤ (l.take b).flatten.length := by
  have h2 : l.take b = l.take a ++ ((l.take b).drop a) := by
    rw [show l.take a = (l.take b).take a from by
      rw [List.take_take, Nat.min_eq_left hab], List.take_append_drop]
  rw [h2, List.flatten_append, List.length_append]
  omega

theorem revRangeFind (n : Nat) (p : Nat → Bool) (j : Nat) (hj : j < n)
    (hpj : p j = true) :
    ∃ idx, ((List.range n).reverse).find? p = some idx ∧ p idx = true ∧
      j ≤ idx ∧ idx < n := by
  induction n with
  | zero => omega
  | succ n ih =>
    cases hpn : p n with
    | true =>
      refine ⟨n, ?_, hpn, by omega, by omega⟩
      rw [List.range_succ, List.reverse_append]
      simp [List.find?_cons, hpn]
    | false =>
      have hj2 : j < n := by
        rcases Nat.lt_or_ge j n with h2 | h2
        · exact h2
        · exfalso
          have hjn : j = n := by omega
          rw [hjn] at hpj
          rw [hpj] at hpn
          cases hpn
      obtain ⟨idx, hfind, hpidx, hge, hlt⟩ := ih hj2
      refine ⟨idx, ?_, hpidx, hge, by omega⟩
      rw [List.range_succ, List.reverse_append]
      simp [List.find?_cons, hpn, hfind]

theorem jsOuterLoopF_ok : ∀ (fuel : Nat) (parts : List Bytes) (chars : List Nat)
    (data : Bytes), data.length < fuel → (∀ c ∈ chars, c < parts.length) →
    ∃ parts2 chars2, jsOuterLoopF fuel parts chars data = .ok (parts2, chars2) ∧
      parts2.flatten = parts.flatten ++ data := by
  intro fuel
  induction fuel with
  | zero =>
    intro parts chars data hfuel hch
    omega
  | succ f ih =>
    intro parts chars data hfuel hch
    obtain ⟨⟨D, hD⟩, hcont, hch1, hinstr⟩ := jsInnerF_spec (data.length + 1) parts
      chars none data parts.flatten.length (by omega) hch (le_refl _)
      (by intro q hq; cases hq)
    simp only [jsOuterLoopF]
    cases hri : (jsInnerF (data.length + 1) parts chars none data).instr with
    | none =>
      by_cases hrem : (jsInnerF (data.length + 1) parts chars none data).rem.isEmpty
      · refine ⟨(jsInnerF (data.length + 1) parts chars none data).parts,
          (jsInnerF (data.length + 1) parts chars none data).chars,
          by rw [hrem, if_pos rfl], ?_⟩
        have hre : (jsInnerF (data.length + 1) parts chars none data).rem = [] :=
          List.isEmpty_iff.mp hrem
        rw [hre, List.append_nil] at hcont
        exact hcont
      · refine ⟨(jsInnerF (data.length + 1) parts chars none data).parts
            ++ [(jsInnerF (data.length + 1) parts chars none data).rem],
          (jsInnerF (data.length + 1) parts chars none data).chars,
          by rw [Bool.not_eq_true] at hrem; rw [hrem, if_neg (by simp)], ?_⟩
        rw [List.flatten_append]
        simpa using hcont
    | some q =>
      obtain ⟨hrem0, helig⟩ := hinstr q hri
      obtain ⟨j, hj, hlast, hnotin, hLj⟩ := helig
      have hc2 : ((jsInnerF (data.length + 1) parts chars
          none data).chars.contains j) = false := by
        simpa using hnotin
      have hpj : (((jsInnerF (data.length + 1) parts chars none data).parts.getD j
            []).getLast? == some q
          && !((jsInnerF (data.length + 1) parts chars none data).chars.contains j))
          = true := by
        rw [hlast, hc2]
        simp
      obtain ⟨idx, hfind, hpidx, hgej, hltn⟩ := revRangeFind
        (jsInnerF (data.length + 1) parts chars none data).parts.length
        (fun idx => ((jsInnerF (data.length + 1) parts chars none
            data).parts.getD idx []).getLast? == some q
          && !((jsInnerF (data.length + 1) parts chars none data).chars.contains idx))
        j hj hpj
      have hbt : backtrackIdx (jsInnerF (data.length + 1) parts chars none data).parts
          (jsInnerF (data.length + 1) parts chars none data).chars q = some idx := by
        unfold backtrackIdx
        exact hfind
      rw [hrem0, List.append_nil] at hcont
      have hTD := flatten_take_drop
        (jsInnerF (data.length + 1) parts chars none data).parts (idx + 1)
      have hTDlen := congrArg List.length hTD
      rw [List.length_append] at hTDlen
      have hcl := congrArg List.length hcont
      rw [List.length_append] at hcl
      have hmonoTake := flatten_take_len_mono
        (jsInnerF (data.length + 1) parts chars none data).parts (j + 1) (idx + 1)
        (by omega)
      have hmeas : (((jsInnerF (data.length + 1) parts chars none
          data).parts.drop (idx + 1)).flatten).length < f := by
        omega
      have hch2 : ∀ c ∈ (jsInnerF (data.length + 1) parts chars
          none data).chars.filter (fun c => decide (c < idx)),
          c < ((jsInnerF (data.length + 1) parts chars none
            data).parts.take (idx + 1)).length := by
        intro c hc
        rw [List.mem_filter] at hc
        have := of_decide_eq_true hc.2
        rw [List.length_take]
        omega
      obtain ⟨parts2, chars2, hok, hflat⟩ := ih _ _ _ hmeas hch2
      refine ⟨parts2, chars2, ?_, ?_⟩
      · simp [hrem0, hbt, hok]
      · rw [hflat, ← hcont, ← hTD]

theorem gapMergeAux_content (s : Nat) : ∀ (parts : List Bytes) (chars : List Nat)
    (i : Nat), ((gapMergeAux s parts chars i).1).flatten = parts.flatten := by
  induction s with
  | zero =>
    intro parts chars i
    rfl
  | succ s ih =>
    intro parts chars i
    simp only [gapMergeAux]
    split
    · next hgt =>
      rw [ih]
      rw [List.flatten_append, List.flatten_append]
      simp only [List.flatten_cons, List.flatten_nil, List.append_nil]
      have hm := flatten_mid parts (chars.getD i 0 + 1)
        (chars.getD (i + 1) 0 - (chars.getD i 0 + 1))
      rw [show (chars.getD i 0 + 1) + (chars.getD (i + 1) 0 - (chars.getD i 0 + 1))
          = chars.getD (i + 1) 0 from by omega] at hm
      simpa [List.append_assoc] using hm
    · exact ih parts chars (i + 1)

theorem foldParts_content (before after : Bytes) (p : List Bytes) (b1 : Bytes)
    (p1 : List Bytes) (a2 : Bytes) (p2 : List Bytes)
    (k1 : b1 ++ p1.flatten = before ++ p.flatten)
    (k2 : p2.flatten ++ a2 = p1.flatten ++ after) :
    b1 ++ p2.flatten ++ a2 = before ++ p.flatten ++ after := by
  calc b1 ++ p2.flatten ++ a2 = b1 ++ (p2.flatten ++ a2) := by
        rw [List.append_assoc]
    _ = b1 ++ (p1.flatten ++ after) := by rw [k2]
    _ = (b1 ++ p1.flatten) ++ after := by rw [List.append_assoc]
    _ = (before ++ p.flatten) ++ after := by rw [k1]

theorem jsFold_content (before after : Bytes) (parts0 : List Bytes)
    (chars0 : List Nat) :
    (jsFold before after parts0 chars0).1
      ++ ((jsFold before after parts0 chars0).2.2.1).flatten
      ++ (jsFold before after parts0 chars0).2.1
    = before ++ parts0.flatten ++ after := by
  unfold jsFold
  cases chars0 with
  | nil => rfl
  | cons c0 ch =>
    simp only []
    by_cases h0 : c0 ≠ 0
    · simp only [if_pos h0]
      by_cases h1 : ((c0 :: ch).map (fun c => c - c0)).getLastD 0 + 1
          < (parts0.drop c0).length
      · simp only [if_pos h1]
        exact foldParts_content before after parts0 _ _ _ _
          (by rw [List.append_assoc, flatten_take_drop])
          (by rw [← List.append_assoc, flatten_take_drop])
      · simp only [if_neg h1]
        exact foldParts_content before after parts0 _ _ _ _
          (by rw [List.append_assoc, flatten_take_drop]) rfl
    · simp only [if_neg h0]
      by_cases h1 : ((c0 :: ch) : List Nat).getLastD 0 + 1 < parts0.length
      · simp only [if_pos h1]
        exact foldParts_content before after parts0 _ _ _ _ rfl
          (by rw [← List.append_assoc, flatten_take_drop])
      · simp only [if_neg h1]

theorem splitPartsJsStr_ok (t : Testcase) (data : Bytes) :
    ∃ t', splitPartsJsStr t data = .ok t' ∧
      t'.before ++ t'.parts.flatten ++ t'.after
        = t.before ++ t.parts.flatten ++ data ++ t.after := by
  obtain ⟨parts2, chars2, hrun, hflat⟩ := jsOuterLoopF_ok (data.length + 1) t.parts
    [] data (by omega) (by intro c hc; cases hc)
  refine ⟨⟨(jsFold t.before t.after parts2 chars2).1,
      (jsFold t.before t.after parts2 chars2).2.1,
      (gapMerge (jsFold t.before t.after parts2 chars2).2.2.1
        (jsFold t.before t.after parts2 chars2).2.2.2).1,
      setTrues (List.replicate (gapMerge (jsFold t.before t.after parts2 chars2).2.2.1
          (jsFold t.before t.after parts2 chars2).2.2.2).1.length false)
        (gapMerge (jsFold t.before t.after parts2 chars2).2.2.1
          (jsFold t.before t.after parts2 chars2).2.2.2).2⟩, ?_, ?_⟩
  · unfold splitPartsJsStr
    rw [hrun]
  · have hgap := gapMergeAux_content
      (((jsFold t.before t.after parts2 chars2).2.2.2).length - 1)
      ((jsFold t.before t.after parts2 chars2).2.2.1)
      ((jsFold t.before t.after parts2 chars2).2.2.2) 0
    have hfold := jsFold_content t.before t.after parts2 chars2
    simp only [gapMerge]
    rw [hgap, hfold, hflat]
    simp [List.append_assoc]

/-! Characterization of the sentinel errors of `load` (claim C6). -/

theorem phase1_error_char (lines : List Bytes) (acc : Bytes) (e : LErr)
    (h : phase1 lines acc = .error e) : e = .ddendNoBegin := by
  induction lines generalizing acc with
  | nil => simp [phase1] at h
  | cons line rest ih =>
    rw [phase1] at h
    split at h
    · simp at h
    · split at h
      · exact (Except.error.inj h).symm
      · exact ih _ h

theorem phase2_error_char (rest : List Bytes) (acc : Bytes) (e : LErr)
    (h : phase2 rest acc = .error e) : e = .ddbeginNoEnd := by
  induction rest generalizing acc with
  | nil => exact (Except.error.inj h).symm
  | cons line rest2 ih =>
    rw [phase2] at h
    split at h
    · simp at h
    · exact ih _ h

theorem phase2_error_iff (rest : List Bytes) (acc : Bytes) :
    phase2 rest acc = .error .ddbeginNoEnd ↔
      ∀ l ∈ rest, containsSub ddEND l = false := by
  induction rest generalizing acc with
  | nil => simp [phase2]
  | cons line rest2 ih =>
    rw [phase2]
    by_cases he : containsSub ddEND line
    · rw [if_pos he]
      constructor
      · intro h
        simp at h
      · intro h
        have := h line (by simp)
        rw [he] at this
        cases this
    · rw [if_neg he]
      rw [ih]
      constructor
      · intro h l hl
        rcases List.mem_cons.mp hl with hl2 | hl2
        · subst hl2
          simpa using he
        · exact h l hl2
      · intro h l hl
        exact h l (by simp [hl])

theorem phase1_error_iff (lines : List Bytes) (acc : Bytes) :
    phase1 lines acc = .error .ddendNoBegin ↔
      ∃ (k : Nat) (l : Bytes), lines[k]? = some l ∧ containsSub ddEND l = true ∧
        containsSub ddBEGIN l = false ∧
        ∀ (j : Nat) (l2 : Bytes), j < k → lines[j]? = some l2 →
          containsSub ddBEGIN l2 = false ∧ containsSub ddEND l2 = false := by
  induction lines generalizing acc with
  | nil =>
    constructor
    · intro h
      simp [phase1] at h
    · rintro ⟨k, l, hk, -⟩
      simp at hk
  | cons line rest ih =>
    by_cases hb : containsSub ddBEGIN line
    · constructor
      · intro h
        rw [phase1, if_pos hb] at h
        simp at h
      · rintro ⟨k, l, hk, hend, hnb, hprev⟩
        exfalso
        cases k with
        | zero =>
          rw [List.getElem?_cons_zero] at hk
          have hl : line = l := Option.some_inj.mp hk
          rw [← hl] at hnb
          rw [hb] at hnb
          cases hnb
        | succ k =>
          have := (hprev 0 line (by omega) (by simp)).1
          rw [hb] at this
          cases this
    · by_cases he : containsSub ddEND line
      · constructor
        · intro _
          refine ⟨0, line, by simp, he, by simpa using hb, ?_⟩
          intro j l2 hj
          omega
        · intro _
          rw [phase1]
          simp only [if_neg hb]
          rw [if_pos he]
      · have hstep : phase1 (line :: rest) acc = phase1 rest (acc ++ line) := by
          rw [phase1]
          simp only [if_neg hb, if_neg he]
        rw [hstep, ih]
        constructor
        · rintro ⟨k, l, hk, hend, hnb, hprev⟩
          refine ⟨k + 1, l, by simpa using hk, hend, hnb, ?_⟩
          intro j l2 hj hl2
          cases j with
          | zero =>
            rw [List.getElem?_cons_zero] at hl2
            have hl : line = l2 := Option.some_inj.mp hl2
            rw [← hl]
            exact ⟨by simpa using hb, by simpa using he⟩
          | succ j =>
            exact hprev j l2 (by omega) (by simpa using hl2)
        · rintro ⟨k, l, hk, hend, hnb, hprev⟩
          cases k with
          | zero =>
            rw [List.getElem?_cons_zero] at hk
            have hl : line = l := Option.some_inj.mp hk
            rw [← hl] at hend
            exact absurd hend he
          | succ k =>
            refine ⟨k, l, by simpa using hk, hend, hnb, ?_⟩
            intro j l2 hj hl2
            exact hprev (j + 1) l2 (by omega) (by simpa using hl2)

theorem phase1_inr_elim (lines : List Bytes) (acc : Bytes) (bf : Bytes)
    (rest : List Bytes) (h : phase1 lines acc = .ok (.inr (bf, rest))) :
    ∃ (k : Nat) (l : Bytes), lines[k]? = some l ∧ containsSub ddBEGIN l = true ∧
      (∀ (j : Nat) (l2 : Bytes), j < k → lines[j]? = some l2 →
        containsSub ddBEGIN l2 = false ∧ containsSub ddEND l2 = false) ∧
      rest = lines.drop (k + 1) := by
  induction lines generalizing acc with
  | nil => simp [phase1] at h
  | cons line rest2 ih =>
    rw [phase1] at h
    split at h
    · next hb =>
      have hpair := Except.ok.inj h
      have hpair2 : (acc ++ line, rest2) = (bf, rest) := Sum.inr.inj hpair
      have hrest : rest = rest2 := (congrArg Prod.snd hpair2).symm
      refine ⟨0, line, by simp, hb, ?_, by simpa using hrest⟩
      intro j l2 hj
      omega
    · split at h
      · simp at h
      · next hb he =>
        obtain ⟨k, l, hk, hbl, hprev, hrest⟩ := ih _ h
        refine ⟨k + 1, l, by simpa using hk, hbl, ?_, by simpa using hrest⟩
        intro j l2 hj hl2
        cases j with
        | zero =>
          rw [List.getElem?_cons_zero] at hl2
          have hl : line = l2 := Option.some_inj.mp hl2
          rw [← hl]
          exact ⟨by simpa using hb, by simpa using he⟩
        | succ j =>
          exact hprev j l2 (by omega) (by simpa using hl2)

theorem phase1_inr_intro (lines : List Bytes) (acc : Bytes) (k : Nat) (l : Bytes)
    (hk : lines[k]? = some l) (hb : containsSub ddBEGIN l = true)
    (hprev : ∀ (j : Nat) (l2 : Bytes), j < k → lines[j]? = some l2 →
      containsSub ddBEGIN l2 = false ∧ containsSub ddEND l2 = false) :
    ∃ bf, phase1 lines acc = .ok (.inr (bf, lines.drop (k + 1))) := by
  induction lines generalizing acc k with
  | nil => simp at hk
  | cons line rest ih =>
    cases k with
    | zero =>
      rw [List.getElem?_cons_zero] at hk
      have hl : line = l := Option.some_inj.mp hk
      refine ⟨acc ++ line, ?_⟩
      rw [phase1, if_pos (by rw [hl]; exact hb)]
      simp
    | succ k =>
      have h0 := hprev 0 line (by omega) (by simp)
      obtain ⟨bf, hbf⟩ := ih (acc ++ line) k (by simpa using hk)
        (fun j l2 hj hl2 => hprev (j + 1) l2 (by omega) (by simpa using hl2))
      refine ⟨bf, ?_⟩
      rw [phase1, if_neg (by rw [h0.1]; simp), if_neg (by rw [h0.2]; simp)]
      simpa using hbf

theorem splitOf_ok (v : Variant) (t : Testcase) (d : Bytes) :
    ∃ t', splitOf v t d = .ok t' := by
  cases v with
  | line => exact ⟨_, rfl⟩
  | char => exact ⟨_, rfl⟩
  | symbol => exact ⟨_, rfl⟩
  | jsstr =>
    obtain ⟨t', h, -⟩ := splitPartsJsStr_ok t d
    exact ⟨t', h⟩

theorem genericLoad_inr_eq (split : Testcase → Bytes → Except LErr Testcase)
    (data : Bytes) (bf : Bytes) (rest : List Bytes)
    (hp : phase1 (splitLinesLF data) [] = .ok (.inr (bf, rest))) :
    genericLoad split data
      = match phase2 rest [] with
        | .error e => .error e
        | .ok (btw, af) => split { emptyTc with before := bf, after := af } btw := by
  unfold genericLoad
  rw [hp]

theorem genericLoad_error_iff (split : Testcase → Bytes → Except LErr Testcase)
    (hsp : ∀ t d, ∃ t', split t d = .ok t') (data : Bytes) (e : LErr) :
    genericLoad split data = .error e ↔
      (phase1 (splitLinesLF data) [] = .error e ∨
        ∃ bf rest, phase1 (splitLinesLF data) [] = .ok (.inr (bf, rest)) ∧
          phase2 rest [] = .error e) := by
  cases hp : phase1 (splitLinesLF data) [] with
  | error e2 =>
    have hg : genericLoad split data = .error e2 := by
      unfold genericLoad
      rw [hp]
    rw [hg]
    constructor
    · intro h
      exact Or.inl (by rw [Except.error.inj h])
    · rintro (h | ⟨bf, rest, h, -⟩)
      · rw [Except.error.inj h]
      · simp at h
  | ok r =>
    cases r with
    | inl whole =>
      obtain ⟨t', ht'⟩ := hsp emptyTc whole
      have hg : genericLoad split data = .ok t' := by
        unfold genericLoad
        rw [hp]
        exact ht'
      rw [hg]
      constructor
      · intro h
        simp at h
      · rintro (h | ⟨bf, rest, h, -⟩) <;> simp at h
    | inr br =>
      obtain ⟨bf0, rest0⟩ := br
      have hg := genericLoad_inr_eq split data bf0 rest0 hp
      cases hq : phase2 rest0 [] with
      | error e2 =>
        rw [hq] at hg
        have hg2 : genericLoad split data = .error e2 := by rw [hg]
        rw [hg2]
        constructor
        · intro h
          exact Or.inr ⟨bf0, rest0, rfl, by rw [hq, Except.error.inj h]⟩
        · rintro (h | ⟨bf, rest, h, hq2⟩)
          · simp at h
          · have hp2 : (bf0, rest0) = (bf, rest) := Sum.inr.inj (Except.ok.inj h)
            have hrest : rest0 = rest := congrArg Prod.snd hp2
            rw [← hrest, hq] at hq2
            exact (Except.error.inj hq2) ▸ rfl
      | ok ba =>
        obtain ⟨btw, af⟩ := ba
        rw [hq] at hg
        obtain ⟨t', ht'⟩ := hsp { emptyTc with before := bf0, after := af } btw
        have hg2 : genericLoad split data = .ok t' := by
          rw [hg]
          exact ht'
        rw [hg2]
        constructor
        · intro h
          simp at h
        · rintro (h | ⟨bf, rest, h, hq2⟩)
          · simp at h
          · have hp2 : (bf0, rest0) = (bf, rest) := Sum.inr.inj (Except.ok.inj h)
            have hrest : rest0 = rest := congrArg Prod.snd hp2
            rw [← hrest, hq] at hq2
            simp at hq2

theorem loadChar_error_iff (data : Bytes) (e : LErr) :
    loadChar data = .error e
      ↔ genericLoad (fun t d => .ok (splitPartsChar t d)) data = .error e := by
  cases hg : genericLoad (fun t d => .ok (splitPartsChar t d)) data with
  | error e2 =>
    have h2 : loadChar data = .error e2 := by
      unfold loadChar
      rw [hg]
    rw [h2]
  | ok t0 =>
    constructor
    · intro h
      have h2 : loadChar data
          = if (!t0.before.isEmpty || !t0.after.isEmpty) && !t0.parts.isEmpty then
              .ok { t0 with
                    parts := t0.parts.dropLast,
                    reducible := t0.reducible.dropLast,
                    after := 10 :: t0.after }
            else .ok t0 := by
        unfold loadChar
        rw [hg]
      rw [h2] at h
      split at h <;> simp at h
    · intro h
      simp at h

theorem loadV_error_iff (v : Variant) (data : Bytes) (e : LErr) :
    loadV v data = .error e ↔
      (phase1 (splitLinesLF data) [] = .error e ∨
        ∃ bf rest, phase1 (splitLinesLF data) [] = .ok (.inr (bf, rest)) ∧
          phase2 rest [] = .error e) := by
  cases v with
  | line => exact genericLoad_error_iff _ (fun t d => ⟨_, rfl⟩) data e
  | symbol => exact genericLoad_error_iff _ (fun t d => ⟨_, rfl⟩) data e
  | jsstr => exact genericLoad_error_iff _ (fun t d => splitOf_ok .jsstr t d) data e
  | char =>
    exact (loadChar_error_iff data e).trans
      (genericLoad_error_iff _ (fun t d => ⟨_, rfl⟩) data e)

theorem errMessage_mentions (fname : String) :
    containsSub ("DDEND".toList) (errMessage fname .ddendNoBegin).toList = true ∧
    containsSub ("without".toList) (errMessage fname .ddendNoBegin).toList = true ∧
    containsSub ("DDBEGIN".toList) (errMessage fname .ddbeginNoEnd).toList = true ∧
    containsSub ("no".toList) (errMessage fname .ddbeginNoEnd).toList = true := by
  refine ⟨?_, ?_, ?_, ?_⟩ <;>
    · simp only [errMessage, String.toList, String.data_append, List.append_assoc]
      exact containsSub_append_right _ _ _ (containsSub_append_right _ _ _ (by decide))

theorem flatten_map_singleton (data : Bytes) :
    (data.map (fun c => [c])).flatten = data := by
  induction data with
  | nil => rfl
  | cons c rest ih => simp [ih]

/-- With no sentinel lines, `TestcaseChar.load` is the generic load (the
trailing-byte hook does not fire: `before` and `after` stay empty). -/
theorem loadChar_no_sentinel (data : Bytes)
    (hns : ∀ l ∈ splitLinesLF data,
      containsSub ddBEGIN l = false ∧ containsSub ddEND l = false) :
    loadChar data = .ok (splitPartsChar emptyTc data) := by
  have hg : genericLoad (fun t d => .ok (splitPartsChar t d)) data
      = .ok (splitPartsChar emptyTc data) :=
    genericLoad_no_sentinel _ data hns
  have h2 : loadChar data
      = if (!(splitPartsChar emptyTc data).before.isEmpty
            || !(splitPartsChar emptyTc data).after.isEmpty)
          && !(splitPartsChar emptyTc data).parts.isEmpty then
          .ok { splitPartsChar emptyTc data with
                parts := (splitPartsChar emptyTc data).parts.dropLast,
                reducible := (splitPartsChar emptyTc data).reducible.dropLast,
                after := 10 :: (splitPartsChar emptyTc data).after }
        else .ok (splitPartsChar emptyTc data) := by
    unfold loadChar
    rw [hg]
  rw [h2]
  have hcond : ((!(splitPartsChar emptyTc data).before.isEmpty
        || !(splitPartsChar emptyTc data).after.isEmpty)
      && !(splitPartsChar emptyTc data).parts.isEmpty) = false := by
    simp [splitPartsChar, emptyTc]
  rw [hcond]
  simp

theorem splitSym_flatten_content (data : Bytes) :
    (splitPartsSymbol cutBeforeDefault cutAfterDefault emptyTc data).parts.flatten
      = data := by
  simp only [splitPartsSymbol, emptyTc]
  simpa using splitSymAux_flatten cutBeforeDefault cutAfterDefault data.length data
    (le_refl _)

/-! The claims. -/

/-- Claim C1: for every file whose content contains no line with the
substring `DDBEGIN` and no line with the substring `DDEND`, and for every
splitter variant, `load` succeeds and a subsequent `dump` writes exactly the
original file bytes (`before + concat(parts) + after` equals the original
content). -/
theorem claim_C1 (v : Variant) (data : Bytes)
    (hns : ∀ l ∈ splitLinesLF data,
      containsSub ddBEGIN l = false ∧ containsSub ddEND l = false) :
    ∃ t, loadV v data = .ok t ∧ dumpBytes t = data := by
  cases v with
  | line =>
    refine ⟨splitPartsLine emptyTc data, ?_, ?_⟩
    · exact genericLoad_no_sentinel _ data hns
    · simp [dumpBytes, splitPartsLine, emptyTc, splitlinesKE_flatten]
  | char =>
    refine ⟨splitPartsChar emptyTc data, loadChar_no_sentinel data hns, ?_⟩
    simp [dumpBytes, splitPartsChar, emptyTc, flatten_map_singleton]
  | symbol =>
    refine ⟨splitPartsSymbol cutBeforeDefault cutAfterDefault emptyTc data, ?_, ?_⟩
    · exact genericLoad_no_sentinel _ data hns
    · have hf := splitSym_flatten_content data
      simp only [dumpBytes, hf]
      simp [splitPartsSymbol, emptyTc]
  | jsstr =>
    obtain ⟨t2, hok, hcont⟩ := splitPartsJsStr_ok emptyTc data
    refine ⟨t2, ?_, ?_⟩
    · have hv : loadV .jsstr data = genericLoad (splitOf .jsstr) data := rfl
      rw [hv, genericLoad_no_sentinel _ data hns]
      exact hok
    · simpa [dumpBytes, emptyTc] using hcont

theorem claim_C1_witness :
    ∃ t, loadV Variant.jsstr (strBytes "a\n\x27bc\x27d") = .ok t ∧
      dumpBytes t = strBytes "a\n\x27bc\x27d" :=
  claim_C1 Variant.jsstr (strBytes "a\n\x27bc\x27d") (by decide)

/-- Claim C2: `len(parts) == len(reducible)` holds after `load` for every
splitter variant, and is preserved by every `rmslice`. -/
theorem claim_C2 :
    (∀ (v : Variant) (data : Bytes) (t : Testcase), loadV v data = .ok t →
      t.parts.length = t.reducible.length) ∧
    (∀ (t t2 : Testcase) (start stop : Int), t.parts.length = t.reducible.length →
      rmslice t start stop = some t2 → t2.parts.length = t2.reducible.length) := by
  constructor
  · intro v data t h
    exact (loadV_pres_len v data t h).symm
  · intro t t2 start stop hlen h
    exact (rmslice_pres_len t t2 start stop hlen.symm h).symm

theorem claim_C2_witness :
    (splitPartsLine emptyTc (strBytes "hi")).parts.length
      = (splitPartsLine emptyTc (strBytes "hi")).reducible.length ∧
    (⟨[], [], [[48], [49], [50], [52], [53], [54], [55], [56], [57]],
      [false, true, false, false, true, false, true, false, true]⟩
        : Testcase).parts.length
      = (⟨[], [], [[48], [49], [50], [52], [53], [54], [55], [56], [57]],
      [false, true, false, false, true, false, true, false, true]⟩
        : Testcase).reducible.length := by
  constructor
  · exact claim_C2.1 Variant.line (strBytes "hi") _ (by decide)
  · exact claim_C2.2 tcAlt _ 1 2 (by decide) (by decide)

/-- Claim C3: for logical bounds that clamp to an ordered pair, `rmslice`
translates them to physical bounds, keeps exactly the non-reducible parts of
the translated window in place, drops the reducible ones, marks every
retained element non-reducible, and the logical length decreases by exactly
the clamped width. -/
theorem claim_C3 (t : Testcase) (start stop : Int)
    (hlen : t.parts.length = t.reducible.length)
    (hord : clampBound (some start) 0 (tcLen t)
      ≤ clampBound (some stop) (tcLen t) (tcLen t)) :
    ∃ a b t2, sliceXlat t (some start) (some stop) = some (a, b) ∧
      rmslice t start stop = some t2 ∧
      t2.parts = t.parts.take a
        ++ ((((t.parts.drop a).take (b - a)).zip
              ((t.reducible.drop a).take (b - a))).filter
            (fun p => !p.2)).map Prod.fst
        ++ t.parts.drop b ∧
      (∃ klen, t2.reducible = t.reducible.take a
        ++ List.replicate klen false ++ t.reducible.drop b) ∧
      tcLen t2 + (clampBound (some stop) (tcLen t) (tcLen t)
        - clampBound (some start) 0 (tcLen t)) = tcLen t := by
  have hlen2 := hlen.symm
  obtain ⟨a, b, hx, haN, hbN, hca, hcb, hmono⟩ :=
    sliceXlat_spec t hlen2 (some start) (some stop)
  have hab : a ≤ b := hmono hord
  have hrm := rmslice_eval t start stop a b hx
  have hwl : ((t.parts.drop a).take (b - a)).length = b - a := by
    rw [List.length_take, List.length_drop]
    omega
  have hkeep := zipRangeFilter ((t.parts.drop a).take (b - a)) t.reducible a
    (by rw [hwl]; omega)
  rw [hwl] at hkeep
  rw [hwl] at hrm
  rw [hkeep] at hrm
  refine ⟨a, b, _, hx, hrm, rfl, ⟨_, rfl⟩, ?_⟩
  have hpres := rmslice_pres_len t _ start stop hlen2 hrm
  have hcnt2 := tcLen_eq_count _ hpres
  have hcnt := tcLen_eq_count t hlen2
  have hsplit := congrArg (List.count true) (List.take_append_drop b t.reducible)
  rw [List.count_append] at hsplit
  have hble : (t.reducible.take b).count true ≤ t.reducible.count true :=
    (List.take_sublist b t.reducible).count_le true
  have hrep : ∀ n : Nat, List.count true (List.replicate n false) = 0 := by
    intro n
    induction n with
    | zero => rfl
    | succ k ih => simp [List.replicate_succ, List.count_cons, ih]
  set c1 := clampBound (some start) 0 (tcLen t) with hc1
  set c2 := clampBound (some stop) (tcLen t) (tcLen t) with hc2
  rw [hcnt2, hcnt]
  show List.count true (List.take a t.reducible
    ++ List.replicate _ false ++ List.drop b t.reducible) + (c2 - c1)
      = List.count true t.reducible
  simp only [List.count_append, hrep]
  omega

theorem claim_C3_witness :
    ∃ a b t2, sliceXlat tcAlt (some 1) (some 2) = some (a, b) ∧
      rmslice tcAlt 1 2 = some t2 ∧
      t2.parts = tcAlt.parts.take a
        ++ ((((tcAlt.parts.drop a).take (b - a)).zip
              ((tcAlt.reducible.drop a).take (b - a))).filter
            (fun p => !p.2)).map Prod.fst
        ++ tcAlt.parts.drop b ∧
      (∃ klen, t2.reducible = tcAlt.reducible.take a
        ++ List.replicate klen false ++ tcAlt.reducible.drop b) ∧
      tcLen t2 + (clampBound (some 2) (tcLen tcAlt) (tcLen tcAlt)
        - clampBound (some 1) 0 (tcLen tcAlt)) = tcLen tcAlt :=
  claim_C3 tcAlt 1 2 (by decide) (by decide)

/-- Claim C4: for the ten-part alternating-mask fixture, the physical
windows of the consecutive unit logical slices are contiguous,
non-overlapping and cover the whole physical range `[0, 10)`; the
translation of `(-1, None)` equals that of `(4, 5)`; and negative and
oversized bounds clamp into `[0, logical length]` as the unit windows and
the explicitly clamped bounds show. -/
theorem claim_C4 :
    sliceXlat tcAlt (some 0) (some 1) = some (0, 3) ∧
    sliceXlat tcAlt (some 1) (some 2) = some (3, 5) ∧
    sliceXlat tcAlt (some 2) (some 3) = some (5, 7) ∧
    sliceXlat tcAlt (some 3) (some 4) = some (7, 9) ∧
    sliceXlat tcAlt (some 4) (some 5) = some (9, 10) ∧
    tcAlt.parts.length = 10 ∧ tcLen tcAlt = 5 ∧
    sliceXlat tcAlt (some (-1)) none = sliceXlat tcAlt (some 4) (some 5) ∧
    sliceXlat tcAlt (some (-7)) (some 99) = sliceXlat tcAlt (some 0) (some 5) ∧
    clampBound (some (-1)) 0 (tcLen tcAlt) = 4 ∧
    clampBound (some (-7)) 0 (tcLen tcAlt) = 0 ∧
    clampBound (some 99) (tcLen tcAlt) (tcLen tcAlt) = 5 := by
  decide

/-- Claim C5 (amended): `split_parts` of the line, byte/char and
delimiter-run splitters only appends to `parts`/`reducible`, leaving every
pre-existing entry unchanged in value and position; the JS-string splitter
does not satisfy the claim as stated — it rebuilds `reducible` wholesale
(every entry recomputed from the character-token index list). -/
theorem claim_C5 :
    (∀ (t : Testcase) (d : Bytes), ∃ ps rs,
      splitPartsLine t d
        = { t with parts := t.parts ++ ps, reducible := t.reducible ++ rs }) ∧
    (∀ (t : Testcase) (d : Bytes), ∃ ps rs,
      splitPartsChar t d
        = { t with parts := t.parts ++ ps, reducible := t.reducible ++ rs }) ∧
    (∀ (B A : Bytes) (t : Testcase) (d : Bytes), ∃ ps rs,
      splitPartsSymbol B A t d
        = { t with parts := t.parts ++ ps, reducible := t.reducible ++ rs }) ∧
    (∀ (t t2 : Testcase) (d : Bytes), splitPartsJsStr t d = .ok t2 →
      ∃ chars, t2.reducible
        = setTrues (List.replicate t2.parts.length false) chars) := by
  refine ⟨fun t d => ⟨_, _, rfl⟩, fun t d => ⟨_, _, rfl⟩,
    fun B A t d => ⟨_, _, rfl⟩, ?_⟩
  intro t t2 d h
  unfold splitPartsJsStr at h
  split at h
  · simp at h
  · have ht := Except.ok.inj h
    rw [← ht]
    exact ⟨_, rfl⟩

theorem claim_C5_witness :
    ∃ ps rs, splitPartsLine tcAlt (strBytes "x\ny")
      = { tcAlt with
          parts := tcAlt.parts ++ ps,
          reducible := tcAlt.reducible ++ rs } :=
  claim_C5.1 tcAlt (strBytes "x\ny")

theorem claim_C5_cex :
    splitPartsJsStr emptyTc [39, 120, 39]
      = .ok ⟨[39], [39], [[120]], [true]⟩ ∧
    splitPartsJsStr ⟨[39], [39], [[120]], [true]⟩ [97, 98]
      = .ok ⟨[39], [39], [[120], [97, 98]], [false, false]⟩ ∧
    ([true] : List Bool).getD 0 false = true ∧
    ([false, false] : List Bool).getD 0 true = false := by
  decide

/-- Claim C6 (amended): scanning lines in order, `load` fails with the
`DDEND`-without-`DDBLEGIN` error exactly when some line contains `DDEND`,
that same line does not contain `DDBEGIN`, and no earlier line contains
either sentinel; it fails with the `DDBEGIN`-but-no-`DDEND` error exactly
when the first sentinel-bearing line contains `DDBEGIN` and no later line
contains `DDEND` (the per-line `DDBEGIN` check precedes the `DDEND` check,
so a line containing both selects the `DDBEGIN` path); the first error's
message mentions `DDEND` and `without`, the second's mentions `DDBEGIN` and
`no`, and the errors always propagate to the caller. -/
theorem claim_C6 (v : Variant) (data : Bytes) (fname : String) :
    (loadV v data = .error LErr.ddendNoBegin ↔
      ∃ (k : Nat) (l : Bytes), (splitLinesLF data)[k]? = some l ∧
        containsSub ddEND l = true ∧ containsSub ddBEGIN l = false ∧
        ∀ (j : Nat) (l2 : Bytes), j < k → (splitLinesLF data)[j]? = some l2 →
          containsSub ddBEGIN l2 = false ∧ containsSub ddEND l2 = false) ∧
    (loadV v data = .error LErr.ddbeginNoEnd ↔
      ∃ (k : Nat) (l : Bytes), (splitLinesLF data)[k]? = some l ∧
        containsSub ddBEGIN l = true ∧
        (∀ (j : Nat) (l2 : Bytes), j < k → (splitLinesLF data)[j]? = some l2 →
          containsSub ddBEGIN l2 = false ∧ containsSub ddEND l2 = false) ∧
        ∀ l2 ∈ (splitLinesLF data).drop (k + 1), containsSub ddEND l2 = false) ∧
    containsSub ("DDEND".toList) (errMessage fname .ddendNoBegin).toList = true ∧
    containsSub ("without".toList) (errMessage fname .ddendNoBegin).toList = true ∧
    containsSub ("DDBEGIN".toList) (errMessage fname .ddbeginNoEnd).toList = true ∧
    containsSub ("no".toList) (errMessage fname .ddbeginNoEnd).toList = true := by
  obtain ⟨m1, m2, m3, m4⟩ := errMessage_mentions fname
  refine ⟨?_, ?_, m1, m2, m3, m4⟩
  · rw [loadV_error_iff]
    constructor
    · rintro (h | ⟨bf, rest, h, hq⟩)
      · exact (phase1_error_iff _ _).mp h
      · have he := phase2_error_char _ _ _ hq
        simp at he
    · intro h
      exact Or.inl ((phase1_error_iff _ _).mpr h)
  · rw [loadV_error_iff]
    constructor
    · rintro (h | ⟨bf, rest, h, hq⟩)
      · have he := phase1_error_char _ _ _ h
        simp at he
      · obtain ⟨k, l, hk, hbl, hprev, hrest⟩ := phase1_inr_elim _ _ _ _ h
        refine ⟨k, l, hk, hbl, hprev, ?_⟩
        rw [← hrest]
        exact fun l2 hl2 => (phase2_error_iff rest []).mp hq l2 hl2
    · rintro ⟨k, l, hk, hbl, hprev, hrest⟩
      obtain ⟨bf, hbf⟩ := phase1_inr_intro _ [] k l hk hbl hprev
      exact Or.inr ⟨bf, _, hbf, (phase2_error_iff _ []).mpr hrest⟩

theorem claim_C6_witness :
    loadV Variant.line (strBytes "DDEND\n") = .error LErr.ddendNoBegin :=
  (claim_C6 Variant.line (strBytes "DDEND\n") "a.txt").1.mpr
    ⟨0, strBytes "DDEND\n", by decide, by decide, by decide,
      fun j l2 hj _ => absurd hj (by omega)⟩

theorem claim_C6_cex :
    loadV Variant.line cexC6 = .error LErr.ddbeginNoEnd ∧
    splitLinesLF cexC6 = [cexC6] ∧
    containsSub ddEND cexC6 = true ∧
    containsSub ("without".toList) (errMessage "a.txt" LErr.ddbeginNoEnd).toList
      = false ∧
    LErr.ddbeginNoEnd ≠ LErr.ddendNoBegin := by
  decide

/-- Claim C7: the escape-aware JS-string splitter loads
`b"'xabcx'"` to `before = "'"`, five reducible single-byte parts
`x a b c x`, `after = "'"`; and loads `b"'x'abcx'"` to `before = "'"`, one
reducible part `x`, `after = "'abcx'"`. -/
theorem claim_C7 :
    loadV Variant.jsstr (strBytes "\x27xabcx\x27")
      = .ok ⟨[39], [39], [[120], [97], [98], [99], [120]],
          [true, true, true, true, true]⟩ ∧
    loadV Variant.jsstr (strBytes "\x27x\x27abcx\x27")
      = .ok ⟨[39], strBytes "\x27abcx\x27", [[120]], [true]⟩ := by
  constructor
  · decide
  · decide

/-- Claim C8: loading `b"pre\nDDBEGIN\ndata\n2\nDDEND\npost\n"` with the
byte splitter yields `before = "pre\nDDBEGIN\n"`, six reducible single-byte
parts `d a t a \n 2`, and `after = "\nDDEND\npost\n"`; and in general,
whenever the generic load produced a sentinel region (`before` or `after`
non-empty) and a non-empty `parts`, the char variant detaches the trailing
line-break part and prepends the newline byte to `after`. -/
theorem claim_C8 :
    (loadChar c8Data
      = .ok ⟨strBytes "pre\nDDBEGIN\n", strBytes "\nDDEND\npost\n",
          [[100], [97], [116], [97], [10], [50]],
          [true, true, true, true, true, true]⟩) ∧
    (∀ (data : Bytes) (t : Testcase),
      genericLoad (fun t d => .ok (splitPartsChar t d)) data = .ok t →
      (t.before ≠ [] ∨ t.after ≠ []) → t.parts ≠ [] →
      loadChar data = .ok { t with
        parts := t.parts.dropLast,
        reducible := t.reducible.dropLast,
        after := 10 :: t.after }) := by
  constructor
  · decide
  · intro data t hg hba hp
    have h2 : loadChar data
        = if (!t.before.isEmpty || !t.after.isEmpty) && !t.parts.isEmpty then
            .ok { t with
                  parts := t.parts.dropLast,
                  reducible := t.reducible.dropLast,
                  after := 10 :: t.after }
          else .ok t := by
      unfold loadChar
      rw [hg]
    have hpE : t.parts.isEmpty = false := by
      simp [List.isEmpty_iff]
      exact hp
    have hcond : ((!t.before.isEmpty || !t.after.isEmpty) && !t.parts.isEmpty)
        = true := by
      rcases hba with h | h
      · have hbE : t.before.isEmpty = false := by
          simp [List.isEmpty_iff]
          exact h
        simp [hbE, hpE]
      · have haE : t.after.isEmpty = false := by
          simp [List.isEmpty_iff]
          exact h
        simp [haE, hpE]
    rw [h2, hcond]
    simp

theorem claim_C8_witness :
    loadChar c8Data = .ok { (⟨strBytes "pre\nDDBEGIN\n", strBytes "DDEND\npost\n",
        [[100], [97], [116], [97], [10], [50], [10]],
        [true, true, true, true, true, true, true]⟩ : Testcase) with
      parts := ([[100], [97], [116], [97], [10], [50], [10]]
        : List Bytes).dropLast,
      reducible := ([true, true, true, true, true, true, true]
        : List Bool).dropLast,
      after := 10 :: strBytes "DDEND\npost\n" } :=
  claim_C8.2 c8Data
    ⟨strBytes "pre\nDDBEGIN\n", strBytes "DDEND\npost\n",
      [[100], [97], [116], [97], [10], [50], [10]],
      [true, true, true, true, true, true, true]⟩
    (by decide) (Or.inl (by decide)) (by decide)

/-- Claim C9: the backtracking hard-failure branch of the JS-string scanner
is unreachable — `split_parts` always succeeds and in particular never
returns the backtracking error. -/
theorem claim_C9 (t : Testcase) (data : Bytes) :
    (∃ t2, splitPartsJsStr t data = .ok t2) ∧
    splitPartsJsStr t data ≠ .error LErr.jsBacktrack := by
  obtain ⟨t2, h, -⟩ := splitPartsJsStr_ok t data
  refine ⟨⟨t2, h⟩, ?_⟩
  rw [h]
  simp

/-- Claim C10: with `len(parts) == len(reducible)`, `_slice_xlat` always
returns a pair of in-range physical bounds, ordered whenever the clamped
logical bounds are. -/
theorem claim_C10 (t : Testcase) (start stop : Option Int)
    (hlen : t.parts.length = t.reducible.length) :
    ∃ a b, sliceXlat t start stop = some (a, b) ∧
      a ≤ t.parts.length ∧ b ≤ t.parts.length ∧
      (clampBound start 0 (tcLen t) ≤ clampBound stop (tcLen t) (tcLen t) →
        a ≤ b) := by
  obtain ⟨a, b, hx, haN, hbN, -, -, hmono⟩ := sliceXlat_spec t hlen.symm start stop
  exact ⟨a, b, hx, haN, hbN, hmono⟩

theorem claim_C10_witness :
    ∃ a b, sliceXlat tcAlt (some (-3)) none = some (a, b) ∧
      a ≤ tcAlt.parts.length ∧ b ≤ tcAlt.parts.length ∧
      (clampBound (some (-3)) 0 (tcLen tcAlt)
          ≤ clampBound none (tcLen tcAlt) (tcLen tcAlt) →
        a ≤ b) :=
  claim_C10 tcAlt (some (-3)) none (by decide)

end Lithium
